import Mathlib

/-!
Verification of the `optcheck` core (`src/optcheck/optcheck.py`).

The Python program is shallowly embedded below.  Strings are modelled as
`List Char` (`Str`); Python's unbounded non-negative integers as `Nat`;
functions that can crash (assertion failures, `int()` parse errors,
`bail_err` exits) return `Except`/`Option` values.  Python global state
(the `source` fence counters) is threaded explicitly.
-/

namespace Optcheck

abbrev Str := List Char

/-- Coerce a Lean string literal to the `List Char` representation. -/
def cs (s : String) : Str := s.data

/-- Python whitespace for `str.strip` and the regex class `\s`
(space, tab, newline, carriage return, vertical tab, form feed). -/
def pyWs (c : Char) : Bool :=
  c = ' ' || c = '\t' || c = '\n' || c = '\r' || c = '\x0b' || c = '\x0c'

/-- Python `s.lstrip()`. -/
def lstripWs (s : Str) : Str := s.dropWhile pyWs

/-- Python `s.rstrip()`. -/
def rstripWs (s : Str) : Str := (s.reverse.dropWhile pyWs).reverse

/-- Python `s.strip()`. -/
def strip (s : Str) : Str := rstripWs (lstripWs s)

/-- Python `s.rstrip(";")` (removes every trailing `;`). -/
def rstripSemi (s : Str) : Str := (s.reverse.dropWhile (· = ';')).reverse

/-- Boolean prefix test: `isPre p s` iff `s` starts with `p`
(Python `s.startswith(p)`). -/
def isPre : Str → Str → Bool
  | [], _ => true
  | _ :: _, [] => false
  | a :: as, b :: bs => a = b && isPre as bs

/-- Python `sub in s` (substring containment). -/
def containsSub : Str → Str → Bool
  | s, sub =>
    isPre sub s ||
      match s with
      | [] => false
      | _ :: t => containsSub t sub

/-- Python `s.split(",")`: split at every comma, keeping empty pieces. -/
def splitCommaGo : Str → Str → List Str
  | [], acc => [acc.reverse]
  | c :: rest, acc =>
    if c = ',' then acc.reverse :: splitCommaGo rest []
    else splitCommaGo rest (c :: acc)

def splitComma (s : Str) : List Str := splitCommaGo s []

/-- ASCII lower-casing of one character (`str.lower` on the inputs used,
which are ASCII SASS text). -/
def lowerC (c : Char) : Char :=
  if 'A' ≤ c ∧ c ≤ 'Z' then Char.ofNat (c.toNat + 32) else c

def lowerS (s : Str) : Str := s.map lowerC

/-- Python `s.replace(pat, "", 1)`: delete the first occurrence of `pat`. -/
def replaceFirst (s pat : Str) : Str :=
  if isPre pat s then s.drop pat.length
  else
    match s with
    | [] => []
    | c :: t => c :: replaceFirst t pat

/-- Value of one hexadecimal digit. -/
def hexVal (c : Char) : Option Nat :=
  if '0' ≤ c ∧ c ≤ '9' then some (c.toNat - '0'.toNat)
  else if 'a' ≤ c ∧ c ≤ 'f' then some (c.toNat - 'a'.toNat + 10)
  else if 'A' ≤ c ∧ c ≤ 'F' then some (c.toNat - 'A'.toNat + 10)
  else none

def parseHexGo : Str → Nat → Option Nat
  | [], acc => some acc
  | c :: rest, acc =>
    match hexVal c with
    | some v => parseHexGo rest (acc * 16 + v)
    | none => none

/-- Python `int(s, 16)` on the (already stripped) immediates occurring in SASS
text: an optional `0x`/`0X` prefix followed by a non-empty run of hex
digits.  Anything else is a parse failure (Python raises `ValueError`). -/
def parseHex (s : Str) : Option Nat :=
  let body := if isPre (cs "0x") s || isPre (cs "0X") s then s.drop 2 else s
  if body = [] then none else parseHexGo body 0

-- ---------------------------------------------------------------------------
-- Spec-immediate bit tests (optcheck.py lines 86-93)

/-- Function `isspecn`: `((num & 0xffff0000) >> 16) == 0x7f3a`. -/
def isspecn (num : Nat) : Bool := ((num &&& 0xffff0000) >>> 16) == 0x7f3a

/-- Function `getordn`: `(num & 0x000000f0) >> 4`. -/
def getordn (num : Nat) : Nat := (num &&& 0x000000f0) >>> 4

/-- Function `gettypn`: `(num & 0x0000ff00) >> 8`. -/
def gettypn (num : Nat) : Nat := (num &&& 0x0000ff00) >>> 8

-- ---------------------------------------------------------------------------
-- Spec decoding (optcheck.py lines 207-257)

/-- Carrier opcodes `sins = ["IADD32I", "LOP32I.XOR"]`. -/
def sins : List Str := [cs "IADD32I", cs "LOP32I.XOR"]

/-- Function `isspeccand`. -/
def isspeccand (s : Str) : Bool := sins.any (fun sp => isPre sp s)

/-- Function `split_add_inst`: strip, drop trailing semicolons, delete the carrier
opcode, split on commas into exactly three fields, return the immediate
and the second field (register).  `none` models the Python crashes
(`assert(sw)`, `assert(len(items) == 3)`, `int()` failure). -/
def split_add_inst (ins : Str) : Option (Nat × Str) :=
  let ins1 := rstripSemi (strip ins)
  match sins.find? (fun sp => isPre sp ins1) with
  | none => none
  | some sp =>
    let ins2 := replaceFirst ins1 sp
    let items := splitComma ins2
    if items.length = 3 then
      match parseHex (strip (items.getD 2 [])) with
      | some num => some (num, strip (items.getD 1 []))
      | none => none
    else none

structure SpecItem where
  typ : Nat
  ord : Nat
  reg : Str
deriving DecidableEq

/-- Function `get_spec_item`: `.error ()` models a fatal decode crash, `.ok none`
a non-candidate or non-matching immediate (skipped), `.ok (some _)` a
decoded spec item. -/
def get_spec_item (ins : Str) : Except Unit (Option SpecItem) :=
  if isspeccand ins then
    match split_add_inst ins with
    | none => .error ()
    | some (num, reg) =>
      if isspecn num then .ok (some ⟨gettypn num, getordn num, reg⟩)
      else .ok none
  else .ok none

-- ---------------------------------------------------------------------------
-- Instruction map (optcheck.py lines 44-72)

structure IEntry where
  ocl : List Str
  lrp : Nat
  mai : Nat
deriving DecidableEq

/-- Mapping `imap_pm` (pre-maxwell). -/
def imap_pm : List IEntry :=
  [⟨[cs "ST.E"], 0, 1⟩,
   ⟨[cs "LD.E"], 0, 0⟩,
   ⟨[cs "ST.E.CG", cs "ST.E.CG.S"], 0, 1⟩,
   ⟨[cs "LD.E.CG", cs "LD.E.CG.S"], 0, 0⟩,
   ⟨[cs "STS"], 0, 1⟩,
   ⟨[cs "LDS"], 0, 0⟩,
   ⟨[cs "ATOM.E.CAS"], 0, 0⟩,
   ⟨[cs "ATOM.E.EXCH", cs "ATOM.E.INC"], 0, 0⟩,
   ⟨[cs "ST.E.WT"], 0, 1⟩,
   ⟨[cs "LD.E.CV"], 0, 0⟩]

/-- Mapping `imap_ma` (maxwell). -/
def imap_ma : List IEntry :=
  [⟨[cs "ST.E"], 0, 1⟩,
   ⟨[cs "LD.E"], 0, 0⟩,
   ⟨[cs "ST.E", cs "ST.E.S"], 0, 1⟩,
   ⟨[cs "LD.E", cs "LD.E.S"], 0, 0⟩,
   ⟨[cs "STS"], 0, 1⟩,
   ⟨[cs "LDS"], 0, 0⟩,
   ⟨[cs "ATOM.E.CAS"], 0, 0⟩,
   ⟨[cs "ATOM.E.EXCH", cs "ATOM.E.INC"], 0, 0⟩,
   ⟨[cs "ST.E"], 0, 1⟩,
   ⟨[cs "LD.E"], 0, 0⟩]

/-- Fence category substrings `fl`. -/
def fl : List Str := [cs "membar.cta", cs "membar.gl", cs "membar.sys"]

-- ---------------------------------------------------------------------------
-- Clustering (optcheck.py lines 260-338).  The module-level `imap` global
-- is threaded as the `im` parameter (only its length is used here).

/-- A chain element `(j, typn, regn)`: stream position, type index,
register. -/
structure CItem where
  pos : Nat
  typ : Nat
  reg : Str
deriving DecidableEq

instance : Inhabited CItem := ⟨⟨0, 0, []⟩⟩

abbrev Chain := List CItem

/-- Errors of the clustering / driver pipeline.  `decodeFail` covers the
fatal Python crashes inside `get_spec_item` and the
`assert(0 <= typn < len(imap))` failures; the remaining constructors are
the `bail_err` calls. -/
inductive CErr where
  | tooShort
  | decodeFail
  | noSpec
  | missingItem
  | orderGap
deriving DecidableEq

/-- First pass of `cluster_specs`: seed one singleton chain per spec item
with order specifier 0, in scan order (`j` is the index of the head of
the remaining list). -/
def seedsGo (im : List IEntry) : List Str → Nat → Except CErr (List Chain)
  | [], _ => .ok []
  | ins :: rest, j =>
    match get_spec_item ins with
    | .error _ => .error .decodeFail
    | .ok none => seedsGo im rest (j + 1)
    | .ok (some it) =>
      if it.typ < im.length then
        match seedsGo im rest (j + 1) with
        | .error e => .error e
        | .ok cls =>
          if it.ord = 0 then .ok ([⟨j, it.typ, it.reg⟩] :: cls)
          else .ok cls
      else .error .decodeFail

/-- Inner scan of the closest-cluster search: `k` is the index of the
head of `rest`; `best` is `some (m, cl_idx)` for the running minimum
(Python starts from `m = sys.maxsize`, `cl_idx = -1`, modelled by
`none`; every real distance is below `sys.maxsize`). -/
def chooseChainGo (i j : Nat) : List Chain → Nat → Option (Nat × Nat) →
    Option Nat
  | [], _, best => best.map (fun b => b.2)
  | ch :: rest, k, best =>
    if ch.length = i then
      let last := ch.getD (i - 1) default
      let d := Nat.dist last.pos j
      match best with
      | none => chooseChainGo i j rest (k + 1) (some (d, k))
      | some (m, bi) =>
        if d < m then chooseChainGo i j rest (k + 1) (some (d, k))
        else chooseChainGo i j rest (k + 1) (some (m, bi))
    else chooseChainGo i j rest (k + 1) best

/-- Lines 307-319 of `cluster_specs`: index of the chain of length exactly
`i` whose last element's position is closest to `j` (first minimum
wins); `none` when no chain has length `i`. -/
def chooseChain (cl : List Chain) (i j : Nat) : Option Nat :=
  chooseChainGo i j cl 0 none

/-- One round of the `while last_found` loop body for a fixed level `i`:
scan the instructions (position `j` onwards), and append every decoded
item with order `i` to its closest chain of length `i`.  Returns the
updated chains and the `last_found` flag. -/
def levelGo (im : List IEntry) (i : Nat) :
    List Str → Nat → List Chain → Bool → Except CErr (List Chain × Bool)
  | [], _, cl, found => .ok (cl, found)
  | ins :: rest, j, cl, found =>
    match get_spec_item ins with
    | .error _ => .error .decodeFail
    | .ok none => levelGo im i rest (j + 1) cl found
    | .ok (some it) =>
      if it.typ < im.length then
        if it.ord = i then
          match chooseChain cl i j with
          | none => .error .missingItem
          | some k =>
            levelGo im i rest (j + 1)
              (cl.set k (cl.getD k [] ++ [⟨j, it.typ, it.reg⟩])) true
        else levelGo im i rest (j + 1) cl found
      else .error .decodeFail

def levelPass (im : List IEntry) (lis : List Str) (cl : List Chain)
    (i : Nat) : Except CErr (List Chain × Bool) :=
  levelGo im i lis 0 cl false

/-- The `while last_found` loop, starting at level `i`.  `fuel` bounds
the number of rounds; every decoded order index is below 16 (a 4-bit
field), so 16 units of fuel from `i = 1` are never exhausted.  Returns
the chains and the final value of `i` (the Python loop increments `i`
once more after the last round). -/
def levelLoop (im : List IEntry) (lis : List Str) :
    List Chain → Nat → Nat → Except CErr (List Chain × Nat)
  | cl, i, 0 => .ok (cl, i)
  | cl, i, fuel + 1 =>
    match levelPass im lis cl i with
    | .error e => .error e
    | .ok (cl2, found) =>
      if found then levelLoop im lis cl2 (i + 1) fuel
      else .ok (cl2, i + 1)

/-- Gap sanity pass (lines 327-336): fail if any decoded item still has
order index `≥ i`. -/
def gapGo (im : List IEntry) (i : Nat) : List Str → Except CErr Unit
  | [] => .ok ()
  | ins :: rest =>
    match get_spec_item ins with
    | .error _ => .error .decodeFail
    | .ok none => gapGo im i rest
    | .ok (some it) =>
      if it.typ < im.length then
        if it.ord ≥ i then .error .orderGap
        else gapGo im i rest
      else .error .decodeFail

/-- Function `cluster_specs` (lines 260-338). -/
def cluster_specs (im : List IEntry) (lis : List Str) :
    Except CErr (List Chain) :=
  if lis.length ≤ 5 then .error .tooShort
  else
    match seedsGo im lis 0 with
    | .error e => .error e
    | .ok cl =>
      if cl.length = 0 then .error .noSpec
      else
        match levelLoop im lis cl 1 16 with
        | .error e => .error e
        | .ok (cl2, i) =>
          match gapGo im i lis with
          | .error e => .error e
          | .ok _ => .ok cl2

-- ---------------------------------------------------------------------------
-- Window matching (optcheck.py lines 345-487)

/-- Character class of the predicate regex `@[!a-zA-Z0-9]+`. -/
def predChar (c : Char) : Bool :=
  c = '!' || ('a' ≤ c ∧ c ≤ 'z') || ('A' ≤ c ∧ c ≤ 'Z') ||
    ('0' ≤ c ∧ c ≤ '9')

/-- Python `re.sub(r'@[!a-zA-Z0-9]+\s+', '', ins, count=1)`: delete the leftmost
occurrence (anywhere in the string) of an `@`-token followed by
whitespace.  The class characters are never whitespace, so the regex
matches at a position exactly when the maximal class run after the `@`
is non-empty and followed by whitespace, both runs taken greedily. -/
def swallowPred : Str → Str
  | [] => []
  | c :: t =>
    if c = '@' then
      let tok := t.takeWhile predChar
      let rest1 := t.dropWhile predChar
      let sp := rest1.takeWhile pyWs
      if tok ≠ [] ∧ sp ≠ [] then rest1.dropWhile pyWs
      else c :: swallowPred t
    else c :: swallowPred t

/-- Function `has_oc`: `ins[0:len(oc)+1] == oc + " "`. -/
def has_oc (ins oc : Str) : Bool := ins.take (oc.length + 1) == oc ++ [' ']

/-- Function `has_ocl`. -/
def has_ocl (ins : Str) (ocl : List Str) : Bool :=
  ocl.any (fun oc => has_oc ins oc)

/-- Full-match test for the regex `^[rR][0-9]+$`. -/
def isRegTok : Str → Bool
  | [] => false
  | c :: rest =>
    (c = 'r' || c = 'R') && !rest.isEmpty &&
      rest.all (fun d => '0' ≤ d ∧ d ≤ '9')

/-- Function `get_mem_reg` (lines 349-364): strip, drop all leading `[` and
trailing `]`, strip again; return the core when it is a simple register
token. -/
def get_mem_reg (op : Str) : Option Str :=
  let op1 := strip op
  let op2 := op1.dropWhile (· = '[')
  let op3 := (op2.reverse.dropWhile (· = ']')).reverse
  let op4 := strip op3
  if isRegTok op4 then some op4 else none

/-- Function `split_mem_inst` (lines 367-390): drop the first matching opcode,
strip, drop trailing semicolons, split on commas, strip each field.
The `for … else: assert(False)` branch (no opcode matches) is modelled
as `[]`; `check` only calls this under `has_ocl`. -/
def split_mem_inst (ins : Str) (ocl : List Str) : List Str :=
  match ocl.find? (fun oc => has_oc ins oc) with
  | some oc =>
    (splitComma (rstripSemi (strip (ins.drop oc.length)))).map strip
  | none => []

/-- Fence counters, keyed by the category substrings in `fl`. -/
abbrev Counters := Str → Nat

def zeroSrc : Counters := fun _ => 0

def bump (src : Counters) (f : Str) : Counters :=
  fun g => if g = f then src f + 1 else src g

/-- Lines 476-480 for a single instruction: lower-case it and bump every
fence category it contains. -/
def fenceStep (ins : Str) (src : Counters) : Counters :=
  fl.foldl (fun s f => if containsSub (lowerS ins) f then bump s f else s)
    src

/-- Lines 475-480: `for j in range(a, b)` over the instruction list. -/
def countFences (lis : List Str) (a b : Nat) (src : Counters) : Counters :=
  (List.range' a (b - a)).foldl (fun s j => fenceStep (lis.getD j []) s) src

instance : Inhabited IEntry := ⟨⟨[], 0, 0⟩⟩

/-- Lines 461-470 for the current chain step: after predicate stripping,
does this instruction match the step's opcode aliases and register
(through a bracketed memory operand when `mai ≠ 0`)? -/
def stepMatch (e : IEntry) (reg : Str) (ins : Str) : Bool :=
  if has_ocl ins e.ocl then
    let r := (split_mem_inst ins e.ocl).getD e.lrp []
    if e.mai ≠ 0 then
      match get_mem_reg r with
      | some r2 => r2 == reg
      | none => false
    else r == reg
  else false

/-- The window scan of `check` (lines 457-487).  `idxs` is the list of
remaining window indices, `cur` the index into `spec` of the step being
matched (`cur = next - 1` in the Python code), `first` the position of
the first match. -/
def checkGo (im : List IEntry) (spec : Chain) (lis : List Str) :
    List Nat → Nat → Nat → Counters → Bool × Counters
  | [], _, _, src => (false, src)
  | i :: idxs, cur, first, src =>
    let it := spec.getD cur default
    let e := im.getD it.typ default
    let ins := swallowPred (lis.getD i [])
    if stepMatch e it.reg ins then
      let first1 := if cur = 0 then i else first
      if cur + 1 ≥ spec.length then
        (true, countFences lis (first1 + 1) i src)
      else checkGo im spec lis idxs (cur + 1) first1 src
    else checkGo im spec lis idxs cur first src

/-- Function `check` (lines 421-487), with the global `source` counters threaded
as `src`.  The window is `[max(ln - 40, 0), min(ln + 8, len lis))` for
`ln` the first spec item's position (`Nat` subtraction realises the
`max` with 0). -/
def check (im : List IEntry) (spec : Chain) (lis : List Str)
    (src : Counters) : Bool × Counters :=
  let it0 := spec.getD 0 default
  let w_top := it0.pos - 40
  let w_bot := min (it0.pos + 8) lis.length
  checkGo im spec lis (List.range' w_top (w_bot - w_top)) 0 0 src

-- ---------------------------------------------------------------------------
-- Stream normalisation and driver (optcheck.py lines 345-346, 490-578)

/-- Hex / delimiter class of the `isinst` regex (`[0-9a-fxA-FX/\* ]`). -/
def hexcls (c : Char) : Bool :=
  ('0' ≤ c ∧ c ≤ '9') || ('a' ≤ c ∧ c ≤ 'f') || c = 'x' ||
    ('A' ≤ c ∧ c ≤ 'F') || c = 'X' || c = '/' || c = '*' || c = ' '

/-- Function `isinst`: `re.match('^\s+/\*.*[^0-9a-fxA-FX/\* ]', s)` — a non-empty
leading whitespace run, then `/*`, then some non-hex, non-delimiter
character further right. -/
def isinst (s : Str) : Bool :=
  let ws := s.takeWhile pyWs
  let rest := s.dropWhile pyWs
  !ws.isEmpty && isPre (cs "/*") rest &&
    (rest.drop 2).any (fun c => !hexcls c)

/-- Interior characters of a comment: `[^*/]`. -/
def ncom (c : Char) : Bool := c ≠ '*' && c ≠ '/'

/-- Python `re.sub("/\*[^*/]*\*/", "", ln)`: delete every occurrence of a
bracketed comment whose body has no `*` or `/`.  Fuel is the string
length; every step consumes at least one character. -/
def stripCGo : Nat → Str → Str
  | 0, s => s
  | f + 1, s =>
    match s with
    | [] => []
    | c :: t =>
      if c = '/' then
        match t with
        | '*' :: u =>
          let rest := u.dropWhile ncom
          if isPre (cs "*/") rest then stripCGo f (rest.drop 2)
          else c :: stripCGo f t
        | _ => c :: stripCGo f t
      else c :: stripCGo f t

def stripComments (s : Str) : Str := stripCGo s.length s

/-- Python `s.splitlines()` for text whose line breaks are `\n`. -/
def splitLinesGo : Str → Str → List Str
  | [], acc => [acc.reverse]
  | c :: rest, acc =>
    if c = '\n' then acc.reverse :: splitLinesGo rest []
    else splitLinesGo rest (c :: acc)

def splitLines (s : Str) : List Str :=
  let parts := splitLinesGo s []
  match parts.reverse with
  | [] :: rest => rest.reverse
  | parts2 => parts2.reverse

/-- Function `check_spec` (lines 490-526): normalise the stream, cluster, and run
`check` over every cluster, returning the per-chain results and the
final fence counters (initially all zero). -/
def checkAll (im : List IEntry) (cl : List Chain) (lis : List Str)
    (src : Counters) : List Bool × Counters :=
  match cl with
  | [] => ([], src)
  | spec :: rest =>
    let r := check im spec lis src
    let rs := checkAll im rest lis r.2
    (r.1 :: rs.1, rs.2)

def check_spec (im : List IEntry) (s : Str) :
    Except CErr (List Bool × Counters) :=
  let lis1 := (splitLines s).filter isinst
  if lis1.length ≤ 5 then .error .tooShort
  else
    let lis := lis1.map (fun ln => strip (stripComments ln))
    match cluster_specs im lis with
    | .error e => .error e
    | .ok cl => .ok (checkAll im cl lis zeroSrc)

-- ---------------------------------------------------------------------------
-- Target computation and verdict (optcheck.py lines 557-578)

/-- Python `s.count(sub)` for non-empty `sub`: non-overlapping
occurrences, scanning left to right.  Fuel is the string length. -/
def countSubGo (sub : Str) : Nat → Str → Nat
  | 0, _ => 0
  | f + 1, s =>
    match s with
    | [] => 0
    | _ :: t =>
      if isPre sub s then 1 + countSubGo sub f (s.drop sub.length)
      else countSubGo sub f t

def countSub (s sub : Str) : Nat :=
  if sub = [] then s.length + 1 else countSubGo sub s.length s

/-- Lines 559-564 for one category `f` of `fl` (the two Python loops are
independent per category): `target[f] += 2 * count(f + "s")`, then
`target[f] += count(f) - target[f] / 2` with float (exact here)
division, modelled in `ℚ`. -/
def targetFor (tname f : Str) : ℚ :=
  let t1 : ℚ := 2 * countSub tname (f ++ [ 's' ])
  t1 + (countSub tname f - t1 / 2)

/-- Lines 569-572: the `for f in fl: if target[f] > source[f] … break`
loop. -/
def srcMeets : List Str → (Str → ℚ) → Counters → Bool
  | [], _, _ => true
  | f :: fs, tgt, src =>
    if tgt f > (src f : ℚ) then false else srcMeets fs tgt src

/-- The `__main__` verdict (lines 557-578): compute the targets from the
lower-cased test name, run `check_spec`, fold the per-chain results with
`&`, downgrade on a fence deficit, and print/exit. -/
def driver (im : List IEntry) (tname : Str) (out : Str) :
    Except CErr (String × Nat) :=
  match check_spec im out with
  | .error e => .error e
  | .ok (results, src) =>
    let ok := results.foldl (fun a b => a && b) true
    let tgt := fun f => targetFor (lowerS tname) f
    let ok2 := ok && srcMeets fl tgt src
    .ok (if ok2 then ("!!SUCCESS!!", 0) else ("!!FAILURE!!", 2))


-- ---------------------------------------------------------------------------
-- Concrete scenario streams and auxiliary predicates used in the proofs

/-- A two-step chain scenario used in several sanity checks. -/
def lisA : List Str :=
  [cs "IADD32I R1, R5, 0x7f3a0100;",
   cs "IADD32I R1, R6, 0x7f3a0110;",
   cs "NOP;",
   cs "LD.E R5, [R9];",
   cs "MEMBAR.GL;",
   cs "LD.E R6, [R8];",
   cs "NOP;"]

/-- A raw cuobjdump-style blob whose instruction lines normalise to
`lisA`. -/
def rawA : Str :=
  cs ("code for sm_20\n" ++
    "\t/*0000*/ IADD32I R1, R5, 0x7f3a0100;  /* 0x1800000000 */\n" ++
    "\t/*0008*/ IADD32I R1, R6, 0x7f3a0110;  /* 0x1800000001 */\n" ++
    "\t/*0010*/ NOP;\n" ++
    "\t/*0018*/ LD.E R5, [R9];\n" ++
    "\t/*0020*/ MEMBAR.GL;\n" ++
    "\t/*0028*/ LD.E R6, [R8];\n" ++
    "\t/*0030*/ NOP;\n")

/-- A stream whose only memory instruction uses an *unbracketed* operand. -/
def lisC : List Str :=
  [cs "NOP;", cs "NOP;", cs "ST.E R3, R1;", cs "NOP;", cs "NOP;",
   cs "NOP;"]

/-- The chain used in the C8 insertion scenario. -/
def chainA : Chain := [⟨0, 1, cs "R5"⟩, ⟨1, 1, cs "R6"⟩]

/-- Stream `lisA` with the fence instruction between the two matched loads
removed. -/
def lisA2 : List Str :=
  [cs "IADD32I R1, R5, 0x7f3a0100;",
   cs "IADD32I R1, R6, 0x7f3a0110;",
   cs "NOP;",
   cs "LD.E R5, [R9];",
   cs "LD.E R6, [R8];",
   cs "NOP;"]

/-- Length of chain `k`. -/
def lenAt (cl : List Chain) (k : Nat) : Nat := (cl.getD k []).length

/-- Distance from chain `k`'s last element (at index `i - 1`) to stream
position `j`. -/
def distAt (cl : List Chain) (i j k : Nat) : Nat :=
  Nat.dist ((cl.getD k []).getD (i - 1) default).pos j

/-- All instructions decode without a fatal error, with in-range type
indices (the side condition of the clustering passes). -/
def decodesOk (im : List IEntry) (lis : List Str) : Bool :=
  lis.all (fun ins =>
    match get_spec_item ins with
    | .error _ => false
    | .ok none => true
    | .ok (some it) => decide (it.typ < im.length))

/-- Two singleton chains used in the C2 witness. -/
def clW : List Chain := [[⟨0, 1, cs "R5"⟩], [⟨10, 1, cs "R6"⟩]]

/-- Does this instruction decode to a spec item of order `o`? -/
def ordIs (o : Nat) (ins : Str) : Bool :=
  match get_spec_item ins with
  | .ok (some it) => decide (it.ord = o)
  | _ => false

/-- Number of spec items of order `o` in the stream. -/
def ordCount (lis : List Str) (o : Nat) : Nat := lis.countP (ordIs o)

/-- Every decoded order index is 0, 1 or 3. -/
def ordsIn013 (lis : List Str) : Bool :=
  lis.all (fun ins =>
    match get_spec_item ins with
    | .ok (some it) => decide (it.ord = 0 ∨ it.ord = 1 ∨ it.ord = 3)
    | _ => true)

/-- Decoded orders of the stream, in scan order. -/
def specOrds (lis : List Str) : List Nat :=
  lis.filterMap (fun ins =>
    match get_spec_item ins with
    | .ok (some it) => some it.ord
    | _ => none)

/-- A stream with spec items at orders 0, 1, 1, 3 (two order-1 items
for a single order-0 seed). -/
def lisB : List Str :=
  [cs "IADD32I R1, R5, 0x7f3a0000;",
   cs "IADD32I R1, R6, 0x7f3a0010;",
   cs "IADD32I R1, R7, 0x7f3a0010;",
   cs "IADD32I R1, R8, 0x7f3a0030;",
   cs "NOP;",
   cs "NOP;"]

end Optcheck

namespace Optcheck

-- ---------------------------------------------------------------------------
-- Sanity examples (decoder on a concrete carrier instruction)

example : split_add_inst (cs "IADD32I R1, R2, 0x7f3a0110;") =
    some (0x7f3a0110, cs "R2") := by decide

example : get_spec_item (cs "IADD32I R1, R2, 0x7f3a0110;") =
    .ok (some ⟨0x01, 0x1, cs "R2"⟩) := rfl

example : get_spec_item (cs "IADD32I R1, R2, 0x12340110;") = .ok none := rfl

example : get_spec_item (cs "MOV R1, R2;") = .ok none := rfl

example : cluster_specs imap_pm lisA =
    .ok [[⟨0, 1, cs "R5"⟩, ⟨1, 1, cs "R6"⟩]] := rfl

example :
    (check imap_pm [⟨0, 1, cs "R5"⟩, ⟨1, 1, cs "R6"⟩] lisA zeroSrc).1 =
      true := rfl

example :
    (check imap_pm [⟨0, 1, cs "R5"⟩, ⟨1, 1, cs "R6"⟩] lisA zeroSrc).2
      (cs "membar.gl") = 1 := rfl

example : ((splitLines rawA).filter isinst).map
    (fun ln => strip (stripComments ln)) = lisA := rfl

example : (check_spec imap_pm rawA).map (fun r => r.1) = .ok [true] := rfl

-- ---------------------------------------------------------------------------
-- Helper lemmas

/-- The asymmetric target heuristic collapses to the sum of the two
counts: `2*c1 + (c2 - (2*c1)/2) = c1 + c2`. -/
theorem targetFor_eq (tname f : Str) :
    targetFor tname f =
      (countSub tname (f ++ [ 's' ]) : ℚ) + countSub tname f := by
  unfold targetFor
  ring

/-- The verdict loop over `fl` succeeds iff no category's target exceeds
its source count. -/
theorem srcMeets_iff (fs : List Str) (tgt : Str → ℚ) (src : Counters) :
    srcMeets fs tgt src = true ↔ ∀ f ∈ fs, tgt f ≤ (src f : ℚ) := by
  induction fs with
  | nil => simp [srcMeets]
  | cons f fs ih =>
    simp only [srcMeets]
    by_cases h : tgt f > (src f : ℚ)
    · simp only [if_pos h]
      constructor
      · intro hh
        exact absurd hh (by simp)
      · intro hall
        exact (not_le_of_lt h (hall f (List.mem_cons_self f fs))).elim
    · simp only [if_neg h, ih]
      constructor
      · intro hall g hg
        rcases List.mem_cons.1 hg with rfl | hg2
        · exact le_of_not_lt h
        · exact hall g hg2
      · intro hall g hg
        exact hall g (List.mem_cons_of_mem f hg)

/-- Folding with `&&` computes `List.all id`. -/
theorem foldl_and_eq (l : List Bool) (b : Bool) :
    l.foldl (fun a c => a && c) b = (b && l.all id) := by
  induction l generalizing b with
  | nil => simp
  | cons x xs ih => simp [List.foldl_cons, ih, Bool.and_assoc]

/-- Unfolding of `driver` under a successful `check_spec`. -/
theorem driver_eq (im : List IEntry) (tname out : Str)
    (results : List Bool) (src : Counters)
    (h : check_spec im out = .ok (results, src)) :
    driver im tname out =
      .ok (if results.all id = true ∧
            ∀ f ∈ fl, targetFor (lowerS tname) f ≤ (src f : ℚ) then
          ("!!SUCCESS!!", 0) else ("!!FAILURE!!", 2)) := by
  unfold driver
  rw [h]
  simp only [foldl_and_eq, Bool.true_and, Bool.and_eq_true, srcMeets_iff]

example : driver imap_pm (cs "test") rawA = .ok ("!!SUCCESS!!", 0) := by
  obtain ⟨results, src, h⟩ :
      ∃ r s, check_spec imap_pm rawA = .ok (r, s) := ⟨_, _, rfl⟩
  rw [driver_eq imap_pm (cs "test") rawA results src h]
  have hres : results = [true] := by
    have h0 := congrArg
      (fun x => Except.map (fun r : List Bool × Counters => r.1) x) h
    have h2 : (check_spec imap_pm rawA).map
        (fun r : List Bool × Counters => r.1) = .ok [true] := rfl
    simp only [h2, Except.map] at h0
    exact Except.ok.inj h0.symm
  have htgt : ∀ f ∈ fl, targetFor (lowerS (cs "test")) f ≤ ((src f : ℚ)) := by
    have key : ∀ f : Str, countSub (lowerS (cs "test")) (f ++ [ 's' ]) = 0 →
        countSub (lowerS (cs "test")) f = 0 →
        targetFor (lowerS (cs "test")) f ≤ ((src f : ℚ)) := by
      intro f h1 h2
      rw [targetFor_eq, h1, h2]
      simp
    intro f hf
    fin_cases hf
    · exact key _ rfl rfl
    · exact key _ rfl rfl
    · exact key _ rfl rfl
  rw [hres]
  exact congrArg Except.ok (if_pos ⟨rfl, htgt⟩)

example : targetFor (cs "sb-membar.ctass") (cs "membar.cta") = 2 := by
  have h1 : countSub (cs "sb-membar.ctass") (cs "membar.cta" ++ [ 's' ]) = 1 :=
    rfl
  have h2 : countSub (cs "sb-membar.ctass") (cs "membar.cta") = 1 := rfl
  simp only [targetFor, h1, h2]
  norm_num

-- ---------------------------------------------------------------------------
-- Bit-field lemmas

/-- Masking with `(2^m - 1) * 2^k` and shifting right by `k` extracts the
bit field `[k, k+m)`. -/
theorem and_mask_shift (v k m : Nat) :
    (v &&& (2 ^ m - 1) * 2 ^ k) >>> k = v / 2 ^ k % 2 ^ m := by
  apply Nat.eq_of_testBit_eq
  intro idx
  have hdiv : v / 2 ^ k = v >>> k := (Nat.shiftRight_eq_div_pow v k).symm
  rw [hdiv]
  simp only [Nat.testBit_shiftRight, Nat.testBit_and, Nat.testBit_mod_two_pow,
    ← Nat.shiftLeft_eq, Nat.testBit_shiftLeft, Nat.testBit_two_pow_sub_one]
  have h1 : k ≤ k + idx := Nat.le_add_right k idx
  have h2 : k + idx - k = idx := by omega
  simp [h1, h2, Bool.and_comm]

theorem getordn_eq (v : Nat) : getordn v = v / 2 ^ 4 % 2 ^ 4 := by
  have : (0x000000f0 : Nat) = (2 ^ 4 - 1) * 2 ^ 4 := by norm_num
  rw [getordn, this, and_mask_shift]

theorem gettypn_eq (v : Nat) : gettypn v = v / 2 ^ 8 % 2 ^ 8 := by
  have : (0x0000ff00 : Nat) = (2 ^ 8 - 1) * 2 ^ 8 := by norm_num
  rw [gettypn, this, and_mask_shift]

theorem isspecn_iff (v : Nat) :
    isspecn v = true ↔ v / 2 ^ 16 % 2 ^ 16 = 0x7f3a := by
  have : (0xffff0000 : Nat) = (2 ^ 16 - 1) * 2 ^ 16 := by norm_num
  rw [isspecn, this, and_mask_shift, beq_iff_eq]

theorem getordn_lt (v : Nat) : getordn v < 16 := by
  rw [getordn_eq]
  exact Nat.mod_lt _ (by norm_num)

-- ---------------------------------------------------------------------------
-- C3

/-- C3: for every candidate instruction starting with a carrier opcode
whose operand text splits into three comma-separated fields with a hex
immediate `v`, the decoder yields a `SpecItem` iff bits 16-31 of `v`
equal `0x7F3A`; then `typeIndex` is bits 8-15 and `orderIndex` bits 4-7
of `v`, and a non-matching immediate is skipped without an error. -/
theorem decoder_tag_iff :
    ∀ (ins : Str) (v : Nat) (reg : Str),
      isspeccand ins = true →
      split_add_inst ins = some (v, reg) →
      ((∃ it, get_spec_item ins = .ok (some it)) ↔ isspecn v = true) ∧
        (isspecn v = true →
          get_spec_item ins = .ok (some ⟨gettypn v, getordn v, reg⟩)) ∧
        (isspecn v = false → get_spec_item ins = .ok none) ∧
        (isspecn v = true ↔ v / 2 ^ 16 % 2 ^ 16 = 0x7f3a) ∧
        gettypn v = v / 2 ^ 8 % 2 ^ 8 ∧
        getordn v = v / 2 ^ 4 % 2 ^ 4 := by
  intro ins v reg hcand hsplit
  have hitem : get_spec_item ins =
      if isspecn v then .ok (some ⟨gettypn v, getordn v, reg⟩)
      else .ok none := by
    unfold get_spec_item
    rw [hcand, hsplit]
    simp
  refine ⟨?_, ?_, ?_, isspecn_iff v, gettypn_eq v, getordn_eq v⟩
  · constructor
    · intro ⟨it, hit⟩
      by_contra hb
      rw [Bool.not_eq_true] at hb
      rw [hitem, if_neg (by simp [hb])] at hit
      cases hit
    · intro hb
      exact ⟨_, by rw [hitem, if_pos hb]⟩
  · intro hb
    rw [hitem, if_pos hb]
  · intro hb
    rw [hitem, if_neg (by simp [hb])]

/-- Witness for C3 at a concrete carrier instruction. -/
theorem decoder_tag_iff_witness :
    isspeccand (cs "IADD32I R1, R2, 0x7f3a0110;") = true ∧
      split_add_inst (cs "IADD32I R1, R2, 0x7f3a0110;") =
        some (0x7f3a0110, cs "R2") ∧
      get_spec_item (cs "IADD32I R1, R2, 0x7f3a0110;") =
        .ok (some ⟨0x01, 0x01, cs "R2"⟩) := by
  refine ⟨rfl, rfl, ?_⟩
  exact (decoder_tag_iff (cs "IADD32I R1, R2, 0x7f3a0110;") 0x7f3a0110
    (cs "R2") rfl rfl).2.1 rfl

-- ---------------------------------------------------------------------------
-- C4

/-- C4: the target for a category with counts `c1` (of `name ++ "s"`) and
`c2` (of `name`) is `2*c1 + (c2 - c1)`, an integer; for identifier
`"sb-membar.ctass"` the `membar.cta` target is exactly 2. -/
theorem target_heuristic :
    (∀ tname f : Str,
        targetFor tname f =
          2 * (countSub tname (f ++ [ 's' ]) : ℚ) +
            ((countSub tname f : ℚ) - (countSub tname (f ++ [ 's' ]) : ℚ)) ∧
          ∃ n : ℕ, targetFor tname f = (n : ℚ)) ∧
      targetFor (lowerS (cs "sb-membar.ctass")) (cs "membar.cta") = 2 := by
  constructor
  · intro tname f
    constructor
    · rw [targetFor_eq]
      ring
    · refine ⟨countSub tname (f ++ [ 's' ]) + countSub tname f, ?_⟩
      rw [targetFor_eq]
      push_cast
      ring
  · have h1 : countSub (lowerS (cs "sb-membar.ctass"))
        (cs "membar.cta" ++ [ 's' ]) = 1 := rfl
    have h2 : countSub (lowerS (cs "sb-membar.ctass")) (cs "membar.cta") = 1 :=
      rfl
    rw [targetFor_eq, h1, h2]
    norm_num

-- ---------------------------------------------------------------------------
-- C5: predicate stripping

theorem takeWhile_append_of_all {P : Char → Bool} (xs ys : Str)
    (h : ∀ c ∈ xs, P c = true) :
    (xs ++ ys).takeWhile P = xs ++ ys.takeWhile P := by
  induction xs with
  | nil => simp
  | cons x xs ih =>
    have hx : P x = true := h x (List.mem_cons_self x xs)
    simp only [List.cons_append, List.takeWhile_cons_of_pos hx,
      ih (fun c hc => h c (List.mem_cons_of_mem x hc))]

theorem dropWhile_append_of_all {P : Char → Bool} (xs ys : Str)
    (h : ∀ c ∈ xs, P c = true) :
    (xs ++ ys).dropWhile P = ys.dropWhile P := by
  induction xs with
  | nil => simp
  | cons x xs ih =>
    have hx : P x = true := h x (List.mem_cons_self x xs)
    simp only [List.cons_append, List.dropWhile_cons_of_pos hx,
      ih (fun c hc => h c (List.mem_cons_of_mem x hc))]

theorem pyWs_not_predChar (c : Char) (h : pyWs c = true) :
    predChar c = false := by
  simp only [pyWs, Bool.or_eq_true, decide_eq_true_eq] at h
  rcases h with ((((h | h) | h) | h) | h) | h <;> subst h <;> rfl

/-- C5 counterexample: an `@`-prefixed token that is *not* at the start
of the instruction is removed by the predicate-stripping step. -/
theorem pred_strip_nonleading :
    swallowPred (cs "LD.E R5, @P0 [R9];") = cs "LD.E R5, [R9];" ∧
      cs "LD.E R5, @P0 [R9];" ≠ cs "LD.E R5, [R9];" := by
  constructor
  · rfl
  · decide

/-- C5 (amended): the predicate-stripping step deletes exactly one
token, the leftmost occurrence of the pattern
`@<predicate><whitespace>` — whether or not it is leading; everything
after the deleted whitespace run (including later `@`-tokens) is kept
verbatim. -/
theorem pred_strip_leftmost :
    ∀ (p tok sp rest : Str),
      (∀ c ∈ p, c ≠ '@') →
      tok ≠ [] → (∀ c ∈ tok, predChar c = true) →
      sp ≠ [] → (∀ c ∈ sp, pyWs c = true) →
      rest.takeWhile pyWs = [] →
      swallowPred (p ++ '@' :: (tok ++ (sp ++ rest))) = p ++ rest := by
  intro p tok sp rest hp htok htokP hsp hspP hrest
  induction p with
  | nil =>
    simp only [List.nil_append]
    have hspHead : ∃ s ss, sp = s :: ss := by
      cases sp with
      | nil => exact absurd rfl hsp
      | cons s ss => exact ⟨s, ss, rfl⟩
    obtain ⟨s, ss, rfl⟩ := hspHead
    have hsP : pyWs s = true := hspP s (List.mem_cons_self s ss)
    have hsNP : ¬ predChar s = true := by
      simp [pyWs_not_predChar s hsP]
    have htk : (tok ++ (s :: ss ++ rest)).takeWhile predChar = tok := by
      rw [takeWhile_append_of_all tok _ htokP]
      simp only [List.cons_append, List.takeWhile_cons_of_neg hsNP,
        List.append_nil]
    have hdk : (tok ++ (s :: ss ++ rest)).dropWhile predChar =
        s :: ss ++ rest := by
      rw [dropWhile_append_of_all tok _ htokP]
      simp only [List.cons_append, List.dropWhile_cons_of_neg hsNP]
    have htw : (s :: ss ++ rest).takeWhile pyWs = s :: ss ++
        rest.takeWhile pyWs := by
      have := takeWhile_append_of_all (s :: ss) rest hspP
      simpa using this
    have hdw : (s :: ss ++ rest).dropWhile pyWs = rest.dropWhile pyWs := by
      have := dropWhile_append_of_all (s :: ss) rest hspP
      simpa using this
    have hrdrop : rest.dropWhile pyWs = rest := by
      cases rest with
      | nil => rfl
      | cons r rs =>
        by_cases hr : pyWs r = true
        · rw [List.takeWhile_cons_of_pos hr] at hrest
          cases hrest
        · exact List.dropWhile_cons_of_neg (by simp [hr])
    show swallowPred ('@' :: (tok ++ (s :: ss ++ rest))) = rest
    unfold swallowPred
    simp only [if_pos rfl, htk, hdk]
    have hcond : tok ≠ [] ∧ (s :: ss ++ rest).takeWhile pyWs ≠ [] := by
      refine ⟨htok, ?_⟩
      rw [htw]
      simp
    rw [if_pos hcond, hdw, hrdrop]
    simp
  | cons c p ih =>
    have hc : c ≠ '@' := hp c (List.mem_cons_self c p)
    have ih2 := ih (fun d hd => hp d (List.mem_cons_of_mem c hd))
    simp only [List.cons_append]
    unfold swallowPred
    rw [if_neg hc]
    rw [ih2]

/-- Witness for C5 (amended): a leading predicate token is stripped, and
a second, later token in the same instruction survives. -/
theorem pred_strip_leftmost_witness :
    swallowPred (cs "@P0 ST.E [R1], R2; @P1 NOP;") =
      cs "ST.E [R1], R2; @P1 NOP;" := by
  have h := pred_strip_leftmost [] (cs "P0") (cs " ")
    (cs "ST.E [R1], R2; @P1 NOP;") (by intro c hc; cases hc)
    (by decide) (by decide) (by decide) (by decide) rfl
  simpa using h

-- ---------------------------------------------------------------------------
-- C6: memory operand matching

theorem dropWhile_no (P : Char → Bool) (s : Str)
    (h : ∀ c ∈ s, P c = false) : s.dropWhile P = s := by
  cases s with
  | nil => rfl
  | cons c t =>
    exact List.dropWhile_cons_of_neg
      (by simp [h c (List.mem_cons_self c t)])

theorem strip_no_ws (s : Str) (h : ∀ c ∈ s, pyWs c = false) :
    strip s = s := by
  unfold strip lstripWs rstripWs
  rw [dropWhile_no pyWs s h,
    dropWhile_no pyWs s.reverse (fun c hc => h c (List.mem_reverse.1 hc)),
    List.reverse_reverse]

theorem predChar_not_pyWs (c : Char) (h : predChar c = true) :
    pyWs c = false := by
  by_contra hw
  rw [Bool.not_eq_false] at hw
  rw [pyWs_not_predChar c hw] at h
  cases h

/-- Acceptance of a bracketed simple register operand `[rNN]`. -/
theorem get_mem_reg_bracketed (c : Char) (ds : Str)
    (hc : c = 'r' ∨ c = 'R') (hds : ds ≠ [])
    (hdig : ∀ d ∈ ds, (decide ('0' ≤ d) && decide (d ≤ '9')) = true) :
    get_mem_reg ('[' :: c :: ds ++ [ ']' ]) = some (c :: ds) := by
  have hdigne : ∀ d ∈ ds, d ≠ ']' := by
    intro d hd he
    have := hdig d hd
    rw [he] at this
    simp at this
  have hnwsAll : ∀ x ∈ '[' :: c :: ds ++ [ ']' ], pyWs x = false := by
    intro x hx
    rcases List.mem_cons.1 hx with rfl | hx
    · rfl
    rcases List.mem_cons.1 hx with rfl | hx
    · rcases hc with rfl | rfl <;> rfl
    rcases List.mem_append.1 hx with hx | hx
    · refine predChar_not_pyWs x ?_
      have := hdig x hx
      simp only [predChar, Bool.or_eq_true]
      right
      simpa using this
    · rcases List.mem_singleton.1 hx with rfl
      rfl
  have hnws2 : ∀ x ∈ c :: ds, pyWs x = false := by
    intro x hx
    refine hnwsAll x ?_
    rcases List.mem_cons.1 hx with rfl | hx
    · exact List.mem_cons_of_mem _ (List.mem_cons_self _ _)
    · exact List.mem_cons_of_mem _ (List.mem_cons_of_mem _
        (List.mem_append_left _ hx))
  unfold get_mem_reg
  rw [strip_no_ws _ hnwsAll]
  have hcne : ¬ (c = '[') := by
    rcases hc with rfl | rfl <;> decide
  have hstep1 : ('[' :: c :: ds ++ [ ']' ]).dropWhile (· = '[') =
      c :: ds ++ [ ']' ] := by
    simp only [List.cons_append]
    rw [List.dropWhile_cons_of_pos (by simp)]
    rw [List.dropWhile_cons_of_neg (by simp [hcne])]
  have hnobr : ∀ x ∈ (c :: ds).reverse, decide (x = ']') = false := by
    intro x hx
    rcases List.mem_cons.1 (List.mem_reverse.1 hx) with rfl | hx2
    · rcases hc with rfl | rfl <;> rfl
    · simp only [decide_eq_false_iff_not]
      exact hdigne x hx2
  have hrev : (c :: ds ++ [ ']' ]).reverse = ']' :: (c :: ds).reverse := by
    simp
  have hstep2 : ((c :: ds ++ [ ']' ]).reverse.dropWhile
      (fun x => decide (x = ']'))).reverse = c :: ds := by
    rw [hrev, List.dropWhile_cons_of_pos (by simp),
      dropWhile_no _ _ hnobr, List.reverse_reverse]
  have hreg : isRegTok (c :: ds) = true := by
    unfold isRegTok
    have h1 : (c = 'r' || c = 'R') = true := by
      rcases hc with rfl | rfl <;> simp
    have h2 : ds.isEmpty = false := by
      cases ds with
      | nil => exact absurd rfl hds
      | cons e es => rfl
    have h3 : ds.all (fun d => decide ('0' ≤ d) && decide (d ≤ '9')) =
        true := List.all_eq_true.2 hdig
    simp [h1, h2, h3]
  simp only [hstep1, hstep2, strip_no_ws _ hnws2, if_pos hreg]

/-- C6 counterexample: an instruction whose memory-position operand is a
bare register (no brackets anywhere in the instruction) is still counted
as a match by the window scan. -/
theorem mem_operand_unbracketed :
    (check imap_pm [⟨2, 0, cs "R3"⟩] lisC zeroSrc).1 = true ∧
      '[' ∉ cs "ST.E R3, R1;" ∧
      get_mem_reg (cs "R3") = some (cs "R3") := by
  refine ⟨rfl, by decide, rfl⟩

/-- C6 (amended): with the memory-access indicator set, an instruction
with matching opcode is counted as a match iff the operand at the
entry's operand position, after stripping surrounding whitespace and any
leading `[` / trailing `]` characters, is a simple register token equal
to the expected register.  A bracketed reference `[rNN]` qualifies (the
brackets are not required), and an operand whose core is not a simple
register causes the instruction to be skipped. -/
theorem mem_operand_match :
    ∀ (e : IEntry) (reg ins : Str),
      e.mai ≠ 0 →
      (stepMatch e reg ins = true ↔
        has_ocl ins e.ocl = true ∧
          get_mem_reg ((split_mem_inst ins e.ocl).getD e.lrp []) =
            some reg) ∧
        (get_mem_reg ((split_mem_inst ins e.ocl).getD e.lrp []) = none →
          stepMatch e reg ins = false) ∧
        (∀ (c : Char) (ds : Str), (c = 'r' ∨ c = 'R') → ds ≠ [] →
          (∀ d ∈ ds, (decide ('0' ≤ d) && decide (d ≤ '9')) = true) →
          get_mem_reg ('[' :: c :: ds ++ [ ']' ]) = some (c :: ds)) := by
  intro e reg ins hmai
  have hstep : stepMatch e reg ins =
      if has_ocl ins e.ocl then
        match get_mem_reg ((split_mem_inst ins e.ocl).getD e.lrp []) with
        | some r2 => r2 == reg
        | none => false
      else false := by
    unfold stepMatch
    by_cases h : has_ocl ins e.ocl = true
    · rw [if_pos h, if_pos h, if_pos hmai]
    · rw [if_neg h, if_neg h]
  refine ⟨?_, ?_, get_mem_reg_bracketed⟩
  · rw [hstep]
    by_cases h : has_ocl ins e.ocl = true
    · rw [if_pos h]
      cases hg : get_mem_reg ((split_mem_inst ins e.ocl).getD e.lrp []) with
      | none => simp [h, hg]
      | some r2 =>
        simp only [beq_iff_eq, h, true_and, hg]
        constructor
        · intro hr
          exact congrArg some hr
        · intro hr
          exact Option.some.inj hr
    · rw [if_neg h]
      constructor
      · intro hh
        exact absurd hh (by simp)
      · intro hh
        exact (h hh.1).elim
  · intro hg
    rw [hstep]
    by_cases h : has_ocl ins e.ocl = true
    · rw [if_pos h, hg]
    · rw [if_neg h]

/-- Witness for C6 (amended): a bracketed operand `[R3]` matches, and
the bracket-acceptance clause applies to the register `R3`. -/
theorem mem_operand_match_witness :
    stepMatch ⟨[cs "ST.E"], 0, 1⟩ (cs "R3") (cs "ST.E [R3], R1;") = true ∧
      get_mem_reg ('[' :: 'R' :: cs "3" ++ [ ']' ]) = some ('R' :: cs "3") := by
  have h := mem_operand_match ⟨[cs "ST.E"], 0, 1⟩ (cs "R3")
    (cs "ST.E [R3], R1;") (by decide)
  exact ⟨h.1.2 ⟨rfl, rfl⟩,
    h.2.2 'R' (cs "3") (Or.inr rfl) (by decide) (by decide)⟩

-- ---------------------------------------------------------------------------
-- C8: fence tallying

theorem bump_at_self (src : Counters) (f : Str) : bump src f f = src f + 1 := by
  unfold bump
  rw [if_pos rfl]

theorem bump_at_ne (src : Counters) (f g : Str) (h : g ≠ f) :
    bump src f g = src g := by
  unfold bump
  rw [if_neg h]

/-- Function `fenceStep` increments category `f` exactly when the lowered
instruction contains it. -/
theorem fenceStep_at (ins : Str) (src : Counters) (f : Str) (hf : f ∈ fl) :
    fenceStep ins src f =
      src f + (if containsSub (lowerS ins) f = true then 1 else 0) := by
  fin_cases hf <;>
    simp only [fenceStep, fl, List.foldl_cons, List.foldl_nil] <;>
    split_ifs <;>
    simp_all [bump_at_self, bump_at_ne, cs]

theorem countFences_foldl_at (lis : List Str) (f : Str) (hf : f ∈ fl) :
    ∀ (l : List Nat) (src : Counters),
      (l.foldl (fun s j => fenceStep (lis.getD j []) s) src) f =
        src f + l.countP (fun j => containsSub (lowerS (lis.getD j [])) f) := by
  intro l
  induction l with
  | nil => intro src; simp
  | cons j l ih =>
    intro src
    simp only [List.foldl_cons, ih, List.countP_cons]
    rw [fenceStep_at (lis.getD j []) src f hf]
    by_cases h : containsSub (lowerS (lis.getD j [])) f = true
    · simp [h]
      omega
    · simp [h]
      simp at h
      simp [h]

/-- C8: on a fully matched chain the fence scan covers exactly the
half-open index range strictly between the first and the last matched
instruction, bumping a category once per scanned instruction whose
lowered text contains its substring; inserting one `MEMBAR.GL`
instruction between the two matched loads of a two-step chain bumps
`membar.gl` by exactly 1 and no other category. -/
theorem fence_tally :
    (∀ (lis : List Str) (a b : Nat) (src : Counters) (f : Str), f ∈ fl →
        countFences lis a b src f =
          src f + (List.range' a (b - a)).countP
            (fun j => containsSub (lowerS (lis.getD j [])) f)) ∧
      (check imap_pm chainA lisA zeroSrc).1 = true ∧
      (check imap_pm chainA lisA2 zeroSrc).1 = true ∧
      (check imap_pm chainA lisA zeroSrc).2 (cs "membar.gl") =
        (check imap_pm chainA lisA2 zeroSrc).2 (cs "membar.gl") + 1 ∧
      (check imap_pm chainA lisA zeroSrc).2 (cs "membar.cta") =
        (check imap_pm chainA lisA2 zeroSrc).2 (cs "membar.cta") ∧
      (check imap_pm chainA lisA zeroSrc).2 (cs "membar.sys") =
        (check imap_pm chainA lisA2 zeroSrc).2 (cs "membar.sys") := by
  refine ⟨?_, rfl, rfl, rfl, rfl, rfl⟩
  intro lis a b src f hf
  exact countFences_foldl_at lis f hf (List.range' a (b - a)) src

/-- Witness for C8 at category `membar.gl` on the concrete scenario. -/
theorem fence_tally_witness :
    countFences lisA 4 5 zeroSrc (cs "membar.gl") = 1 := by
  have h := fence_tally.1 lisA 4 5 zeroSrc (cs "membar.gl") (by decide)
  rw [h]
  decide

-- ---------------------------------------------------------------------------
-- C7: the window is the only part of the stream that is inspected

theorem fence_foldl_congr (lis lis' : List Str) :
    ∀ (l : List Nat) (src : Counters),
      (∀ j ∈ l, lis.getD j [] = lis'.getD j []) →
      l.foldl (fun s j => fenceStep (lis.getD j []) s) src =
        l.foldl (fun s j => fenceStep (lis'.getD j []) s) src := by
  intro l
  induction l with
  | nil => intro src _; rfl
  | cons j l ih =>
    intro src h
    simp only [List.foldl_cons]
    rw [h j (List.mem_cons_self j l)]
    exact ih _ (fun k hk => h k (List.mem_cons_of_mem j hk))

theorem countFences_congr (lis lis' : List Str) (a b : Nat) (src : Counters)
    (h : ∀ j, a ≤ j → j < b → lis.getD j [] = lis'.getD j []) :
    countFences lis a b src = countFences lis' a b src := by
  unfold countFences
  apply fence_foldl_congr
  intro j hj
  obtain ⟨i, hi, rfl⟩ := List.mem_range'.1 hj
  exact h _ (by omega) (by omega)

theorem checkGo_frame (im : List IEntry) (spec : Chain)
    (lis lis' : List Str) (a b : Nat)
    (hag : ∀ j, a ≤ j → j < b → lis.getD j [] = lis'.getD j []) :
    ∀ (idxs : List Nat) (cur first : Nat) (src : Counters),
      (∀ i ∈ idxs, a ≤ i ∧ i < b) →
      (cur = 0 ∨ (a ≤ first ∧ first < b)) →
      checkGo im spec lis idxs cur first src =
        checkGo im spec lis' idxs cur first src := by
  intro idxs
  induction idxs with
  | nil =>
    intro cur first src _ _
    rfl
  | cons i idxs ih =>
    intro cur first src hidx hinv
    have hib := hidx i (List.mem_cons_self i idxs)
    have hins : lis.getD i [] = lis'.getD i [] := hag i hib.1 hib.2
    have htl : ∀ k ∈ idxs, a ≤ k ∧ k < b :=
      fun k hk => hidx k (List.mem_cons_of_mem i hk)
    simp only [checkGo]
    rw [hins]
    by_cases hm : stepMatch (im.getD (spec.getD cur default).typ default)
        (spec.getD cur default).reg (swallowPred (lis'.getD i [])) = true
    · rw [if_pos hm, if_pos hm]
      have hfirst1 : a ≤ (if cur = 0 then i else first) ∧
          (if cur = 0 then i else first) < b := by
        by_cases hc : cur = 0
        · simpa [hc] using hib
        · rcases hinv with hc0 | hfb
          · exact absurd hc0 hc
          · simpa [hc] using hfb
      by_cases hl : cur + 1 ≥ spec.length
      · rw [if_pos hl, if_pos hl]
        have := countFences_congr lis lis'
          ((if cur = 0 then i else first) + 1) i src
          (fun j hj1 hj2 => hag j (by omega) (by omega))
        rw [this]
      · rw [if_neg hl, if_neg hl]
        exact ih (cur + 1) (if cur = 0 then i else first) src htl
          (Or.inr hfirst1)
    · rw [if_neg hm, if_neg hm]
      exact ih cur first src htl hinv

theorem checkAll_length (im : List IEntry) :
    ∀ (cl : List Chain) (lis : List Str) (src : Counters),
      (checkAll im cl lis src).1.length = cl.length := by
  intro cl
  induction cl with
  | nil => intro lis src; rfl
  | cons spec rest ih =>
    intro lis src
    simp only [checkAll, List.length_cons]
    rw [ih]

/-- C7: `check` inspects only the window
`[max(p - 40, 0), min(p + 8, streamLength))` around the first spec
item's position `p` — two streams of equal length that agree on the
window give identical results and counters; an exhausted window returns
a plain per-chain failure (no exception), and the driver processes every
chain regardless of individual results. -/
theorem window_bounded :
    (∀ (im : List IEntry) (spec : Chain) (lis lis' : List Str)
        (src : Counters),
      lis.length = lis'.length →
      (∀ i, (spec.getD 0 default).pos - 40 ≤ i →
          i < min ((spec.getD 0 default).pos + 8) lis.length →
          lis.getD i [] = lis'.getD i []) →
      check im spec lis src = check im spec lis' src) ∧
    (∀ (im : List IEntry) (spec : Chain) (lis : List Str)
        (cur first : Nat) (src : Counters),
      checkGo im spec lis [] cur first src = (false, src)) ∧
    (∀ (im : List IEntry) (cl : List Chain) (lis : List Str)
        (src : Counters),
      (checkAll im cl lis src).1.length = cl.length) := by
  refine ⟨?_, ?_, checkAll_length⟩
  · intro im spec lis lis' src hlen hag
    unfold check
    rw [← hlen]
    apply checkGo_frame im spec lis lis'
      ((spec.getD 0 default).pos - 40)
      (min ((spec.getD 0 default).pos + 8) lis.length) hag
    · intro i hi
      obtain ⟨k, hk, rfl⟩ := List.mem_range'.1 hi
      omega
    · exact Or.inl rfl
  · intro im spec lis cur first src
    rfl

/-- Witness for C7: two streams that differ only below the window (the
chain starts at position 45, so the window is `[5, 10)`) yield the same
check result. -/
theorem window_bounded_witness :
    check imap_pm [⟨45, 1, cs "R5"⟩]
        (cs "AAA;" :: List.replicate 9 (cs "NOP;")) zeroSrc =
      check imap_pm [⟨45, 1, cs "R5"⟩]
        (cs "BBB;" :: List.replicate 9 (cs "NOP;")) zeroSrc := by
  apply window_bounded.1 imap_pm [⟨45, 1, cs "R5"⟩] _ _ zeroSrc rfl
  intro i h1 h2
  simp only [CItem.pos] at h1 h2
  have h2b : i < 10 := lt_of_lt_of_le h2 (by simp)
  interval_cases i <;> rfl

-- ---------------------------------------------------------------------------
-- C1: overall verdict

/-- C1: the overall verdict is the conjunction of all per-chain results,
downgraded to failure when some category's target exceeds its observed
count; on success the driver emits `!!SUCCESS!!` with exit status 0, on
verification failure `!!FAILURE!!` with exit status 2. -/
theorem verdict_rule :
    ∀ (im : List IEntry) (tname out : Str) (results : List Bool)
      (src : Counters),
      check_spec im out = .ok (results, src) →
      (driver im tname out = .ok ("!!SUCCESS!!", 0) ↔
        (∀ b ∈ results, b = true) ∧
          ∀ f ∈ fl, targetFor (lowerS tname) f ≤ (src f : ℚ)) ∧
      (driver im tname out = .ok ("!!FAILURE!!", 2) ↔
        ¬ ((∀ b ∈ results, b = true) ∧
          ∀ f ∈ fl, targetFor (lowerS tname) f ≤ (src f : ℚ))) := by
  intro im tname out results src h
  rw [driver_eq im tname out results src h]
  have hCiff : (results.all id = true ∧
      ∀ f ∈ fl, targetFor (lowerS tname) f ≤ (src f : ℚ)) ↔
      ((∀ b ∈ results, b = true) ∧
        ∀ f ∈ fl, targetFor (lowerS tname) f ≤ (src f : ℚ)) := by
    constructor
    · intro hc
      exact ⟨fun b hb => List.all_eq_true.1 hc.1 b hb, hc.2⟩
    · intro hc
      exact ⟨List.all_eq_true.2 (fun b hb => hc.1 b hb), hc.2⟩
  by_cases hc : results.all id = true ∧
      ∀ f ∈ fl, targetFor (lowerS tname) f ≤ (src f : ℚ)
  · rw [if_pos hc]
    constructor
    · simp only [true_iff]
      exact hCiff.1 hc
    · constructor
      · intro hbad
        exact absurd (Prod.mk.injEq _ _ _ _ ▸ Except.ok.inj hbad)
          (by simp)
      · intro hbad
        exact absurd (hCiff.1 hc) hbad
  · rw [if_neg hc]
    constructor
    · constructor
      · intro hbad
        exact absurd (Prod.mk.injEq _ _ _ _ ▸ Except.ok.inj hbad)
          (by simp)
      · intro hok
        exact absurd (hCiff.2 hok) hc
    · simp only [true_iff]
      intro hok
      exact hc (hCiff.2 hok)

/-- Witness for C1: the concrete blob `rawA` verifies, and the driver
reports success with exit status 0. -/
theorem verdict_rule_witness :
    driver imap_pm (cs "test") rawA = .ok ("!!SUCCESS!!", 0) := by
  obtain ⟨results, src, h⟩ :
      ∃ r s, check_spec imap_pm rawA = .ok (r, s) := ⟨_, _, rfl⟩
  refine ((verdict_rule imap_pm (cs "test") rawA results src h).1).2 ⟨?_, ?_⟩
  · have h0 := congrArg
      (fun x => Except.map (fun r : List Bool × Counters => r.1) x) h
    have h2 : (check_spec imap_pm rawA).map
        (fun r : List Bool × Counters => r.1) = .ok [true] := rfl
    simp only [h2, Except.map] at h0
    have hres : results = [true] := Except.ok.inj h0.symm
    rw [hres]
    intro b hb
    simpa using hb
  · have key : ∀ f : Str, countSub (lowerS (cs "test")) (f ++ [ 's' ]) = 0 →
        countSub (lowerS (cs "test")) f = 0 →
        targetFor (lowerS (cs "test")) f ≤ ((src f : ℚ)) := by
      intro f h1 h2
      rw [targetFor_eq, h1, h2]
      simp
    intro f hf
    fin_cases hf
    · exact key _ rfl rfl
    · exact key _ rfl rfl
    · exact key _ rfl rfl

-- ---------------------------------------------------------------------------
-- C2: nearest-chain clustering

theorem getD_of_lt (cl : List Chain) (k : Nat) (h : k < cl.length) :
    cl.getD k [] = cl[k] := by
  simp [List.getD_eq_getElem?_getD, List.getElem?_eq_getElem h]

theorem chooseGo_cons_none (i j : Nat) (ch : Chain) (rest : List Chain)
    (k : Nat) :
    chooseChainGo i j (ch :: rest) k none =
      if ch.length = i then
        chooseChainGo i j rest (k + 1)
          (some (Nat.dist (ch.getD (i - 1) default).pos j, k))
      else chooseChainGo i j rest (k + 1) none := rfl

theorem chooseGo_cons_some (i j : Nat) (ch : Chain) (rest : List Chain)
    (k m bi : Nat) :
    chooseChainGo i j (ch :: rest) k (some (m, bi)) =
      if ch.length = i then
        (if Nat.dist (ch.getD (i - 1) default).pos j < m then
          chooseChainGo i j rest (k + 1)
            (some (Nat.dist (ch.getD (i - 1) default).pos j, k))
        else chooseChainGo i j rest (k + 1) (some (m, bi)))
      else chooseChainGo i j rest (k + 1) (some (m, bi)) := rfl

/-- Full specification of the inner argmin scan of `cluster_specs`. -/
theorem chooseGo_main (cl : List Chain) (i j : Nat) :
    ∀ (n k : Nat) (best : Option (Nat × Nat)),
      cl.length - k = n →
      (∀ m bi, best = some (m, bi) → bi < cl.length ∧ bi < k ∧
        lenAt cl bi = i ∧ distAt cl i j bi = m ∧
        ∀ k2, k2 < k → k2 < cl.length → lenAt cl k2 = i →
          m ≤ distAt cl i j k2 ∧ (distAt cl i j k2 = m → bi ≤ k2)) →
      (best = none → ∀ k2, k2 < k → k2 < cl.length → lenAt cl k2 ≠ i) →
      (∀ r, chooseChainGo i j (cl.drop k) k best = some r →
        r < cl.length ∧ lenAt cl r = i ∧
          ∀ k2, k2 < cl.length → lenAt cl k2 = i →
            distAt cl i j r ≤ distAt cl i j k2 ∧
              (distAt cl i j k2 = distAt cl i j r → r ≤ k2)) ∧
      (chooseChainGo i j (cl.drop k) k best = none →
        ∀ k2, k2 < cl.length → lenAt cl k2 ≠ i) := by
  intro n
  induction n with
  | zero =>
    intro k best hnk hs hn
    have hdrop : cl.drop k = [] := List.drop_eq_nil_of_le (by omega)
    rw [hdrop]
    constructor
    · intro r hr
      cases best with
      | none => cases hr
      | some mb =>
        obtain ⟨m, bi⟩ := mb
        have hbir : bi = r := by
          simpa [chooseChainGo] using hr
        obtain ⟨h1, h2, h3, h4, h5⟩ := hs m bi rfl
        subst hbir
        refine ⟨h1, h3, ?_⟩
        intro k2 hk2l hk2
        have := h5 k2 (by omega) hk2l hk2
        rw [h4]
        exact this
    · intro _ k2 hk2l
      exact hn (by
        cases best with
        | none => rfl
        | some mb => simp [chooseChainGo] at *) k2 (by omega) hk2l
  | succ n ih =>
    intro k best hnk hs hn
    have hklt : k < cl.length := by omega
    have hdrop : cl.drop k = cl[k] :: cl.drop (k + 1) :=
      List.drop_eq_getElem_cons hklt
    have hgetD : cl.getD k [] = cl[k] := getD_of_lt cl k hklt
    rw [hdrop]
    have hdk : Nat.dist ((cl.getD k []).getD (i - 1) default).pos j =
        distAt cl i j k := rfl
    cases best with
    | none =>
      rw [chooseGo_cons_none]
      rw [← hgetD]
      by_cases hlen : (cl.getD k []).length = i
      · rw [if_pos hlen]
        have hlenk : lenAt cl k = i := hlen
        have hnone := hn rfl
        refine ih (k + 1)
          (some (Nat.dist ((cl.getD k []).getD (i - 1) default).pos j, k))
          (by omega) ?_ (by intro h; cases h)
        intro m bi hmb
        obtain ⟨hm, hbi⟩ := Prod.mk.injEq _ _ _ _ ▸ Option.some.inj hmb
        subst hbi
        refine ⟨hklt, by omega, hlenk, by rw [← hm, hdk], ?_⟩
        intro k2 hk2 hk2l hk2len
        have hk2k : k2 = k := by
          by_contra hne
          exact hnone k2 (by omega) hk2l hk2len
        subst hk2k
        rw [← hm, hdk]
        exact ⟨le_refl _, fun _ => le_refl _⟩
      · rw [if_neg hlen]
        have hlenk : lenAt cl k ≠ i := hlen
        refine ih (k + 1) none (by omega)
          (by intro m bi hmb; cases hmb) ?_
        intro _ k2 hk2 hk2l
        by_cases hk2k : k2 = k
        · subst hk2k
          exact hlenk
        · exact hn rfl k2 (by omega) hk2l
    | some mb =>
      obtain ⟨m, bi⟩ := mb
      obtain ⟨h1, h2, h3, h4, h5⟩ := hs m bi rfl
      rw [chooseGo_cons_some]
      rw [← hgetD]
      by_cases hlen : (cl.getD k []).length = i
      · rw [if_pos hlen]
        have hlenk : lenAt cl k = i := hlen
        by_cases hd : Nat.dist ((cl.getD k []).getD (i - 1) default).pos j < m
        · rw [if_pos hd]
          refine ih (k + 1)
            (some (Nat.dist ((cl.getD k []).getD (i - 1) default).pos j, k))
            (by omega) ?_ (by intro h; cases h)
          intro m2 bi2 hmb
          obtain ⟨hm2, hbi2⟩ := Prod.mk.injEq _ _ _ _ ▸ Option.some.inj hmb
          subst hbi2
          refine ⟨hklt, by omega, hlenk, by rw [← hm2, hdk], ?_⟩
          intro k2 hk2 hk2l hk2len
          by_cases hk2k : k2 = k
          · subst hk2k
            rw [← hm2, hdk]
            exact ⟨le_refl _, fun _ => le_refl _⟩
          · have hold := h5 k2 (by omega) hk2l hk2len
            rw [← hm2]
            rw [hdk] at hd
            constructor
            · omega
            · intro heq
              rw [hdk] at heq
              omega
        · rw [if_neg hd]
          refine ih (k + 1) (some (m, bi)) (by omega) ?_
            (by intro h; cases h)
          intro m2 bi2 hmb
          obtain ⟨hm2, hbi2⟩ := Prod.mk.injEq _ _ _ _ ▸ Option.some.inj hmb
          subst hbi2
          subst hm2
          refine ⟨h1, by omega, h3, h4, ?_⟩
          intro k2 hk2 hk2l hk2len
          by_cases hk2k : k2 = k
          · subst hk2k
            rw [hdk] at hd
            constructor
            · omega
            · intro heq
              omega
          · exact h5 k2 (by omega) hk2l hk2len
      · rw [if_neg hlen]
        have hlenk : lenAt cl k ≠ i := hlen
        refine ih (k + 1) (some (m, bi)) (by omega) ?_
          (by intro h; cases h)
        intro m2 bi2 hmb
        obtain ⟨hm2, hbi2⟩ := Prod.mk.injEq _ _ _ _ ▸ Option.some.inj hmb
        subst hbi2
        subst hm2
        refine ⟨h1, by omega, h3, h4, ?_⟩
        intro k2 hk2 hk2l hk2len
        by_cases hk2k : k2 = k
        · subst hk2k
          exact absurd hk2len hlenk
        · exact h5 k2 (by omega) hk2l hk2len

/-- The argmin selection: when `chooseChain` returns `some r`, chain `r`
has length exactly `i` and minimal distance, earliest index on ties. -/
theorem chooseChain_spec (cl : List Chain) (i j r : Nat)
    (h : chooseChain cl i j = some r) :
    r < cl.length ∧ lenAt cl r = i ∧
      ∀ k2, k2 < cl.length → lenAt cl k2 = i →
        distAt cl i j r ≤ distAt cl i j k2 ∧
          (distAt cl i j k2 = distAt cl i j r → r ≤ k2) := by
  have hmain := chooseGo_main cl i j cl.length 0 none (by omega)
    (by intro m bi hmb; cases hmb) (by intro _ k2 hk2 _; omega)
  have h0 : chooseChainGo i j (cl.drop 0) 0 none = some r := by
    rw [List.drop_zero]
    exact h
  exact hmain.1 r h0

/-- Function `chooseChain` returns `none` exactly when no chain has length `i`. -/
theorem chooseChain_none_iff (cl : List Chain) (i j : Nat) :
    chooseChain cl i j = none ↔
      ∀ k2, k2 < cl.length → lenAt cl k2 ≠ i := by
  have hmain := chooseGo_main cl i j cl.length 0 none (by omega)
    (by intro m bi hmb; cases hmb) (by intro _ k2 hk2 _; omega)
  constructor
  · intro h
    refine hmain.2 ?_
    rw [List.drop_zero]
    exact h
  · intro h
    cases hr : chooseChain cl i j with
    | none => rfl
    | some r =>
      have := chooseChain_spec cl i j r hr
      exact absurd this.2.1 (h r this.1)

/-- Decoded items carry a 4-bit order index. -/
theorem spec_item_ord_lt (ins : Str) (it : SpecItem)
    (h : get_spec_item ins = .ok (some it)) : it.ord < 16 := by
  unfold get_spec_item at h
  by_cases hc : isspeccand ins = true
  · rw [if_pos hc] at h
    cases hsp : split_add_inst ins with
    | none =>
      rw [hsp] at h
      cases h
    | some p =>
      obtain ⟨num, reg⟩ := p
      simp only [hsp] at h
      by_cases hn : isspecn num = true
      · rw [if_pos hn] at h
        have := Except.ok.inj h
        have hit : it = ⟨gettypn num, getordn num, reg⟩ :=
          (Option.some.inj this).symm
        rw [hit]
        exact getordn_lt num
      · rw [if_neg hn] at h
        cases Except.ok.inj h
  · rw [if_neg hc] at h
    cases Except.ok.inj h

theorem decodesOk_cons (im : List IEntry) (ins : Str) (rest : List Str)
    (h : decodesOk im (ins :: rest) = true) :
    decodesOk im rest = true := by
  unfold decodesOk at h ⊢
  rw [List.all_cons, Bool.and_eq_true] at h
  exact h.2

theorem decodesOk_head (im : List IEntry) (ins : Str) (rest : List Str)
    (h : decodesOk im (ins :: rest) = true) :
    (get_spec_item ins ≠ .error ()) ∧
      ∀ it, get_spec_item ins = .ok (some it) → it.typ < im.length := by
  unfold decodesOk at h
  rw [List.all_cons, Bool.and_eq_true] at h
  have h1 := h.1
  constructor
  · intro he
    rw [he] at h1
    cases h1
  · intro it hit
    rw [hit] at h1
    exact of_decide_eq_true h1

theorem getD_set_self (cl : List Chain) (k : Nat) (v : Chain)
    (h : k < cl.length) : (cl.set k v).getD k [] = v := by
  simp [List.getD_eq_getElem?_getD, List.getElem?_set_self h]

theorem getD_set_ne (cl : List Chain) (k k2 : Nat) (v : Chain)
    (h : k ≠ k2) : (cl.set k v).getD k2 [] = cl.getD k2 [] := by
  simp [List.getD_eq_getElem?_getD, List.getElem?_set_ne h]

/-- Across one level pass, each chain either keeps its length or — only
when it entered the round with length exactly `i` — grows by exactly
one: no chain receives two items at the same level. -/
theorem levelGo_shape (im : List IEntry) (i : Nat) :
    ∀ (lis : List Str) (j : Nat) (cl : List Chain) (found : Bool)
      (cl2 : List Chain) (fnd2 : Bool),
      levelGo im i lis j cl found = .ok (cl2, fnd2) →
      cl2.length = cl.length ∧
        ∀ k, k < cl.length →
          lenAt cl2 k = lenAt cl k ∨
            (lenAt cl k = i ∧ lenAt cl2 k = i + 1) := by
  intro lis
  induction lis with
  | nil =>
    intro j cl found cl2 fnd2 h
    simp only [levelGo] at h
    obtain ⟨h1, h2⟩ := Prod.mk.injEq _ _ _ _ ▸ Except.ok.inj h
    subst h1
    exact ⟨rfl, fun k hk => Or.inl rfl⟩
  | cons ins rest ih =>
    intro j cl found cl2 fnd2 h
    cases hins : get_spec_item ins with
    | error e =>
      simp only [levelGo, hins] at h
      cases h
    | ok oit =>
      cases oit with
      | none =>
        simp only [levelGo, hins] at h
        exact ih (j + 1) cl found cl2 fnd2 h
      | some it =>
        simp only [levelGo, hins] at h
        by_cases htyp : it.typ < im.length
        · rw [if_pos htyp] at h
          by_cases hord : it.ord = i
          · rw [if_pos hord] at h
            cases hcc : chooseChain cl i j with
            | none =>
              simp only [hcc] at h
              cases h
            | some k0 =>
              simp only [hcc] at h
              obtain ⟨hk0lt, hk0len, _⟩ := chooseChain_spec cl i j k0 hcc
              have hmid := ih (j + 1) _ true cl2 fnd2 h
              have hlen' :
                  (cl.set k0 (cl.getD k0 [] ++ [⟨j, it.typ, it.reg⟩])).length
                    = cl.length := by
                simp
              refine ⟨by rw [hmid.1, hlen'], ?_⟩
              intro k hk
              have hk' := hmid.2 k (by rw [hlen']; exact hk)
              by_cases hkk : k = k0
              · subst hkk
                have hset : lenAt
                    (cl.set k (cl.getD k [] ++ [⟨j, it.typ, it.reg⟩])) k =
                    i + 1 := by
                  have hk0len2 := hk0len
                  rw [lenAt] at hk0len2
                  rw [lenAt, getD_set_self _ _ _ hk0lt, List.length_append,
                    hk0len2]
                  rfl
                rcases hk' with h' | h'
                · right
                  exact ⟨hk0len, by rw [h', hset]⟩
                · right
                  exact ⟨hk0len, h'.2⟩
              · have hclk : lenAt
                    (cl.set k0 (cl.getD k0 [] ++ [⟨j, it.typ, it.reg⟩])) k =
                    lenAt cl k := by
                  rw [lenAt, lenAt, getD_set_ne _ _ _ _ (fun he => hkk he.symm)]
                rcases hk' with h' | h'
                · left
                  rw [h', hclk]
                · right
                  exact ⟨by rw [← hclk]; exact h'.1, h'.2⟩
          · rw [if_neg hord] at h
            exact ih (j + 1) cl found cl2 fnd2 h
        · rw [if_neg htyp] at h
          cases h

/-- A level pass that meets no item of order `i` leaves the chains and
the flag unchanged. -/
theorem levelGo_id (im : List IEntry) (i : Nat) :
    ∀ (lis : List Str) (j : Nat) (cl : List Chain) (found : Bool),
      decodesOk im lis = true →
      (∀ ins ∈ lis, ∀ it, get_spec_item ins = .ok (some it) → it.ord ≠ i) →
      levelGo im i lis j cl found = .ok (cl, found) := by
  intro lis
  induction lis with
  | nil =>
    intro j cl found _ _
    rfl
  | cons ins rest ih =>
    intro j cl found hdec hno
    have hd := decodesOk_head im ins rest hdec
    cases hins : get_spec_item ins with
    | error e =>
      exact absurd (by rw [hins]) hd.1
    | ok oit =>
      cases oit with
      | none =>
        simp only [levelGo, hins]
        exact ih (j + 1) cl found (decodesOk_cons im ins rest hdec)
          (fun x hx => hno x (List.mem_cons_of_mem ins hx))
      | some it =>
        simp only [levelGo, hins]
        rw [if_pos (hd.2 it hins),
          if_neg (hno ins (List.mem_cons_self ins rest) it hins)]
        exact ih (j + 1) cl found (decodesOk_cons im ins rest hdec)
          (fun x hx => hno x (List.mem_cons_of_mem ins hx))

/-- If no chain currently has length `i`, the first encountered item of
order `i` aborts the pass with the missing-item error. -/
theorem levelGo_missing (im : List IEntry) (i : Nat) :
    ∀ (lis : List Str) (j : Nat) (cl : List Chain) (found : Bool),
      decodesOk im lis = true →
      (∀ k2, k2 < cl.length → lenAt cl k2 ≠ i) →
      (∃ ins ∈ lis, ∃ it, get_spec_item ins = .ok (some it) ∧ it.ord = i) →
      levelGo im i lis j cl found = .error .missingItem := by
  intro lis
  induction lis with
  | nil =>
    intro j cl found _ _ hex
    obtain ⟨ins, hmem, _⟩ := hex
    cases hmem
  | cons ins rest ih =>
    intro j cl found hdec hno hex
    have hd := decodesOk_head im ins rest hdec
    cases hins : get_spec_item ins with
    | error e =>
      exact absurd (by rw [hins]) hd.1
    | ok oit =>
      cases oit with
      | none =>
        simp only [levelGo, hins]
        refine ih (j + 1) cl found (decodesOk_cons im ins rest hdec) hno ?_
        obtain ⟨x, hx, it, hxit, hord⟩ := hex
        rcases List.mem_cons.1 hx with rfl | hx2
        · rw [hins] at hxit
          cases hxit
        · exact ⟨x, hx2, it, hxit, hord⟩
      | some it =>
        simp only [levelGo, hins]
        rw [if_pos (hd.2 it hins)]
        by_cases hord : it.ord = i
        · rw [if_pos hord]
          have hcc : chooseChain cl i j = none :=
            (chooseChain_none_iff cl i j).2 hno
          simp only [hcc]
        · rw [if_neg hord]
          refine ih (j + 1) cl found (decodesOk_cons im ins rest hdec) hno ?_
          obtain ⟨x, hx, it2, hxit, hord2⟩ := hex
          rcases List.mem_cons.1 hx with rfl | hx2
          · rw [hins] at hxit
            have : it2 = it := (Option.some.inj (Except.ok.inj hxit)).symm
            rw [this] at hord2
            exact absurd hord2 hord
          · exact ⟨x, hx2, it2, hxit, hord2⟩

/-- C2: at every level `i ≥ 1`, each item of order `i` (scanned in
stream order) is appended to the chain of current length exactly `i`
whose last element is closest in position, earliest chain on ties; a
chain extended at level `i` (now of length `i + 1`) is never assigned a
second item at the same level, and when no chain of length `i` exists
for some item the pass aborts with the missing-item error. -/
theorem cluster_assignment :
    (∀ (cl : List Chain) (i j r : Nat),
        chooseChain cl i j = some r →
        r < cl.length ∧ lenAt cl r = i ∧
          ∀ k2, k2 < cl.length → lenAt cl k2 = i →
            distAt cl i j r ≤ distAt cl i j k2 ∧
              (distAt cl i j k2 = distAt cl i j r → r ≤ k2)) ∧
      (∀ (cl : List Chain) (i j : Nat),
        chooseChain cl i j = none ↔
          ∀ k2, k2 < cl.length → lenAt cl k2 ≠ i) ∧
      (∀ (im : List IEntry) (i : Nat) (lis : List Str) (j : Nat)
          (cl : List Chain) (found : Bool) (cl2 : List Chain) (fnd2 : Bool),
        levelGo im i lis j cl found = .ok (cl2, fnd2) →
        cl2.length = cl.length ∧
          ∀ k, k < cl.length →
            lenAt cl2 k = lenAt cl k ∨
              (lenAt cl k = i ∧ lenAt cl2 k = i + 1)) ∧
      (∀ (im : List IEntry) (i : Nat) (lis : List Str) (j : Nat)
          (cl : List Chain) (found : Bool),
        decodesOk im lis = true →
        (∀ k2, k2 < cl.length → lenAt cl k2 ≠ i) →
        (∃ ins ∈ lis, ∃ it, get_spec_item ins = .ok (some it) ∧
          it.ord = i) →
        levelGo im i lis j cl found = .error .missingItem) :=
  ⟨chooseChain_spec, chooseChain_none_iff,
    fun im i => levelGo_shape im i,
    fun im i => levelGo_missing im i⟩

/-- Witness for C2 on concrete data: position 2 is assigned to the
nearer chain 0; no chain of length 3 exists; a one-item level pass
extends exactly one chain; and a level-2 item with no open chain aborts
with the missing-item error. -/
theorem cluster_assignment_witness :
    (distAt clW 1 2 0 ≤ distAt clW 1 2 1 ∧
      (distAt clW 1 2 1 = distAt clW 1 2 0 → (0 : Nat) ≤ 1)) ∧
      (∀ k2, k2 < clW.length → lenAt clW k2 ≠ 3) ∧
      ([[⟨0, 1, cs "R5"⟩, ⟨0, 1, cs "R7"⟩], [⟨10, 1, cs "R6"⟩]] :
        List Chain).length = clW.length ∧
      levelGo imap_pm 2 [cs "IADD32I R1, R7, 0x7f3a0120;"] 0 clW false =
        .error .missingItem := by
  have hno3 : ∀ k2, k2 < clW.length → lenAt clW k2 ≠ 3 :=
    (cluster_assignment.2.1 clW 3 2).1 rfl
  refine ⟨?_, hno3, ?_, ?_⟩
  · exact (cluster_assignment.1 clW 1 2 0 rfl).2.2 1 (by decide) rfl
  · have hrun : levelGo imap_pm 1 [cs "IADD32I R1, R7, 0x7f3a0110;"] 0
        clW false =
        .ok ([[⟨0, 1, cs "R5"⟩, ⟨0, 1, cs "R7"⟩], [⟨10, 1, cs "R6"⟩]],
          true) := rfl
    exact (cluster_assignment.2.2.1 imap_pm 1
      [cs "IADD32I R1, R7, 0x7f3a0110;"] 0 clW false _ _ hrun).1
  · refine cluster_assignment.2.2.2 imap_pm 2
      [cs "IADD32I R1, R7, 0x7f3a0120;"] 0 clW false rfl ?_ ?_
    · intro k2 hk2
      have hk2b : k2 < 2 := hk2
      interval_cases k2 <;> decide
    · exact ⟨cs "IADD32I R1, R7, 0x7f3a0120;",
        List.mem_singleton.2 rfl, ⟨1, 2, cs "R7"⟩, rfl, rfl⟩

-- ---------------------------------------------------------------------------
-- C10: 4-bit order field, at most 16 levels, chains of length ≤ 16

/-- Every chain seeded by the order-0 pass is a singleton. -/
theorem seedsGo_len1 (im : List IEntry) :
    ∀ (lis : List Str) (j : Nat) (cl : List Chain),
      seedsGo im lis j = .ok cl → ∀ c ∈ cl, c.length = 1 := by
  intro lis
  induction lis with
  | nil =>
    intro j cl h c hc
    have : cl = [] := (Except.ok.inj h).symm
    subst this
    cases hc
  | cons ins rest ih =>
    intro j cl h c hc
    cases hins : get_spec_item ins with
    | error e =>
      simp only [seedsGo, hins] at h
      cases h
    | ok oit =>
      cases oit with
      | none =>
        simp only [seedsGo, hins] at h
        exact ih (j + 1) cl h c hc
      | some it =>
        simp only [seedsGo, hins] at h
        by_cases htyp : it.typ < im.length
        · rw [if_pos htyp] at h
          cases hrec : seedsGo im rest (j + 1) with
          | error e =>
            simp only [hrec] at h
            cases h
          | ok cls =>
            simp only [hrec] at h
            by_cases hord : it.ord = 0
            · rw [if_pos hord] at h
              have hcl : cl = [⟨j, it.typ, it.reg⟩] :: cls :=
                (Except.ok.inj h).symm
              subst hcl
              rcases List.mem_cons.1 hc with rfl | hc2
              · rfl
              · exact ih (j + 1) cls hrec c hc2
            · rw [if_neg hord] at h
              have hcl : cl = cls := (Except.ok.inj h).symm
              subst hcl
              exact ih (j + 1) _ hrec c hc
        · rw [if_neg htyp] at h
          cases h

/-- A successful seed pass certifies that the whole stream decodes. -/
theorem seedsGo_decodesOk (im : List IEntry) :
    ∀ (lis : List Str) (j : Nat) (cl : List Chain),
      seedsGo im lis j = .ok cl → decodesOk im lis = true := by
  intro lis
  induction lis with
  | nil =>
    intro j cl _
    rfl
  | cons ins rest ih =>
    intro j cl h
    unfold decodesOk
    rw [List.all_cons, Bool.and_eq_true]
    cases hins : get_spec_item ins with
    | error e =>
      simp only [seedsGo, hins] at h
      cases h
    | ok oit =>
      cases oit with
      | none =>
        simp only [seedsGo, hins] at h
        exact ⟨rfl, ih (j + 1) cl h⟩
      | some it =>
        simp only [seedsGo, hins] at h
        by_cases htyp : it.typ < im.length
        · rw [if_pos htyp] at h
          cases hrec : seedsGo im rest (j + 1) with
          | error e =>
            simp only [hrec] at h
            cases h
          | ok cls =>
            refine ⟨?_, ih (j + 1) cls hrec⟩
            simp only [hins]
            simp [htyp]
        · rw [if_neg htyp] at h
          cases h

/-- Chain lengths through the level loop stay below 16 and the loop
advances the level counter by at most the available fuel. -/
theorem levelLoop_bound (im : List IEntry) (lis : List Str)
    (hdec : decodesOk im lis = true) :
    ∀ (fuel i : Nat) (cl cl2 : List Chain) (i2 : Nat),
      1 ≤ i →
      (∀ k, k < cl.length → lenAt cl k ≤ min i 16) →
      levelLoop im lis cl i fuel = .ok (cl2, i2) →
      (∀ k, k < cl2.length → lenAt cl2 k ≤ 16) ∧ i2 ≤ i + fuel := by
  intro fuel
  induction fuel with
  | zero =>
    intro i cl cl2 i2 hi hlen h
    obtain ⟨h1, h2⟩ := Prod.mk.injEq _ _ _ _ ▸ Except.ok.inj h
    subst h1
    subst h2
    exact ⟨fun k hk => le_trans (hlen k hk) (by omega),
      Nat.le_refl i⟩
  | succ fuel ih =>
    intro i cl cl2 i2 hi hlen h
    cases hpass : levelPass im lis cl i with
    | error e =>
      simp only [levelLoop, hpass] at h
      cases h
    | ok p =>
      obtain ⟨clm, found⟩ := p
      simp only [levelLoop, hpass] at h
      have hshape := levelGo_shape im i lis 0 cl false clm found hpass
      have hlenm : ∀ k, k < clm.length → lenAt clm k ≤ min (i + 1) 16 := by
        by_cases hile : i ≤ 15
        · intro k hk
          have hk2 : k < cl.length := by rw [← hshape.1]; exact hk
          rcases hshape.2 k hk2 with h' | h'
          · rw [h']
            exact le_trans (hlen k hk2) (by omega)
          · rw [h'.2]
            omega
        · have hid : levelGo im i lis 0 cl false = .ok (cl, false) := by
            refine levelGo_id im i lis 0 cl false hdec ?_
            intro x hx it hxit
            have := spec_item_ord_lt x it hxit
            omega
          unfold levelPass at hpass
          rw [hid] at hpass
          obtain ⟨hcl, _⟩ := Prod.mk.injEq _ _ _ _ ▸ Except.ok.inj hpass
          subst hcl
          intro k hk
          exact le_trans (hlen k hk) (by omega)
      cases found with
      | true =>
        have := ih (i + 1) clm cl2 i2 (by omega) hlenm h
        exact ⟨this.1, by omega⟩
      | false =>
        obtain ⟨h1, h2⟩ := Prod.mk.injEq _ _ _ _ ▸ Except.ok.inj h
        subst h1
        subst h2
        exact ⟨fun k hk => le_trans (hlenm k hk) (by omega), by omega⟩

/-- The level loop advances the level counter by at most its fuel. -/
theorem levelLoop_fuel (im : List IEntry) (lis : List Str) :
    ∀ (fuel i : Nat) (cl cl2 : List Chain) (i2 : Nat),
      levelLoop im lis cl i fuel = .ok (cl2, i2) → i2 ≤ i + fuel := by
  intro fuel
  induction fuel with
  | zero =>
    intro i cl cl2 i2 h
    obtain ⟨_, h2⟩ := Prod.mk.injEq _ _ _ _ ▸ Except.ok.inj h
    omega
  | succ fuel ih =>
    intro i cl cl2 i2 h
    cases hpass : levelPass im lis cl i with
    | error e =>
      simp only [levelLoop, hpass] at h
      cases h
    | ok p =>
      obtain ⟨clm, found⟩ := p
      simp only [levelLoop, hpass] at h
      cases found with
      | true =>
        have := ih (i + 1) clm cl2 i2 h
        omega
      | false =>
        obtain ⟨_, h2⟩ := Prod.mk.injEq _ _ _ _ ▸ Except.ok.inj h
        omega

/-- C10: the decoded order index is a 4-bit field, hence below 16;
consequently the level loop stops within its 16 rounds of fuel (final
level counter at most 17) and every chain output by `cluster_specs` has
length at most 16. -/
theorem order_field_bound :
    (∀ num : Nat, getordn num < 16) ∧
      (∀ (im : List IEntry) (lis : List Str) (cl : List Chain),
        cluster_specs im lis = .ok cl → ∀ c ∈ cl, c.length ≤ 16) ∧
      (∀ (im : List IEntry) (lis : List Str) (cl cl2 : List Chain)
          (i2 : Nat),
        levelLoop im lis cl 1 16 = .ok (cl2, i2) → i2 ≤ 17) := by
  refine ⟨getordn_lt, ?_, ?_⟩
  · intro im lis cl h c hc
    unfold cluster_specs at h
    by_cases hn : lis.length ≤ 5
    · rw [if_pos hn] at h
      cases h
    · rw [if_neg hn] at h
      cases hseeds : seedsGo im lis 0 with
      | error e =>
        simp only [hseeds] at h
        cases h
      | ok seeds =>
        simp only [hseeds] at h
        by_cases hz : seeds.length = 0
        · rw [if_pos hz] at h
          cases h
        · rw [if_neg hz] at h
          cases hloop : levelLoop im lis seeds 1 16 with
          | error e =>
            simp only [hloop] at h
            cases h
          | ok p =>
            obtain ⟨cl2, i2⟩ := p
            simp only [hloop] at h
            cases hgap : gapGo im i2 lis with
            | error e =>
              simp only [hgap] at h
              cases h
            | ok u =>
              simp only [hgap] at h
              have hcl : cl = cl2 := (Except.ok.inj h).symm
              subst hcl
              have hdec := seedsGo_decodesOk im lis 0 seeds hseeds
              have hseed1 := seedsGo_len1 im lis 0 seeds hseeds
              have hinv : ∀ k, k < seeds.length →
                  lenAt seeds k ≤ min 1 16 := by
                intro k hk
                rw [lenAt, getD_of_lt seeds k hk]
                rw [hseed1 seeds[k] (List.getElem_mem hk)]
                omega
              have := levelLoop_bound im lis hdec 16 1 seeds cl i2
                (le_refl 1) hinv hloop
              obtain ⟨kidx, hkidx, hkc⟩ := List.getElem_of_mem hc
              have := this.1 kidx hkidx
              rw [lenAt, getD_of_lt cl kidx hkidx, hkc] at this
              exact this
  · intro im lis cl cl2 i2 hloop
    exact levelLoop_fuel im lis 16 1 cl cl2 i2 hloop

/-- Witness for C10 on the concrete stream `lisA`: the produced two-step
chain respects the bound, and the loop stops at level counter 3. -/
theorem order_field_bound_witness :
    ([⟨0, 1, cs "R5"⟩, ⟨1, 1, cs "R6"⟩] : Chain).length ≤ 16 ∧
      (3 : Nat) ≤ 17 := by
  constructor
  · exact order_field_bound.2.1 imap_pm lisA
      [[⟨0, 1, cs "R5"⟩, ⟨1, 1, cs "R6"⟩]] rfl _
      (List.mem_singleton.2 rfl)
  · exact order_field_bound.2.2 imap_pm lisA
      [[⟨0, 1, cs "R5"⟩]] [[⟨0, 1, cs "R5"⟩, ⟨1, 1, cs "R6"⟩]] 3 rfl

-- ---------------------------------------------------------------------------
-- C9: order-gap detection

theorem ordIs_decode (o : Nat) (ins : Str) (h : ordIs o ins = true) :
    ∃ it, get_spec_item ins = .ok (some it) ∧ it.ord = o := by
  unfold ordIs at h
  cases hins : get_spec_item ins with
  | error e =>
    rw [hins] at h
    cases h
  | ok oit =>
    cases oit with
    | none =>
      rw [hins] at h
      cases h
    | some it =>
      rw [hins] at h
      exact ⟨it, rfl, of_decide_eq_true h⟩

theorem ordsIn013_prop (lis : List Str) (h : ordsIn013 lis = true) :
    ∀ ins ∈ lis, ∀ it, get_spec_item ins = .ok (some it) →
      it.ord = 0 ∨ it.ord = 1 ∨ it.ord = 3 := by
  intro ins hins it hit
  have h2 := List.all_eq_true.1 h ins hins
  simp only [hit] at h2
  exact of_decide_eq_true h2

/-- Replacing an element that satisfies `P` by one that does not lowers
`countP` by exactly one. -/
theorem countP_set_of (P : Chain → Bool) :
    ∀ (cl : List Chain) (k : Nat) (v : Chain), k < cl.length →
      P (cl.getD k []) = true → P v = false →
      (cl.set k v).countP P + 1 = cl.countP P := by
  intro cl
  induction cl with
  | nil =>
    intro k v hk _ _
    cases hk
  | cons c rest ih =>
    intro k v hk hP hPv
    cases k with
    | zero =>
      simp only [List.set_cons_zero, List.countP_cons]
      simp only [List.getD_cons_zero] at hP
      rw [hP, hPv]
      simp
    | succ k =>
      simp only [List.set_cons_succ, List.countP_cons]
      simp only [List.getD_cons_succ] at hP
      have := ih k v (by simpa using hk) hP hPv
      omega

/-- With a fully decoding stream the seed pass succeeds and produces one
chain per order-0 item. -/
theorem seedsGo_ok (im : List IEntry) :
    ∀ (lis : List Str) (j : Nat),
      decodesOk im lis = true →
      ∃ seeds, seedsGo im lis j = .ok seeds ∧
        seeds.length = ordCount lis 0 := by
  intro lis
  induction lis with
  | nil =>
    intro j _
    exact ⟨[], rfl, rfl⟩
  | cons ins rest ih =>
    intro j hdec
    have hd := decodesOk_head im ins rest hdec
    obtain ⟨seeds, hs, hlen⟩ := ih (j + 1) (decodesOk_cons im ins rest hdec)
    cases hins : get_spec_item ins with
    | error e =>
      exact absurd (by rw [hins]) hd.1
    | ok oit =>
      cases oit with
      | none =>
        refine ⟨seeds, ?_, ?_⟩
        · simp only [seedsGo, hins]
          exact hs
        · rw [hlen]
          unfold ordCount
          rw [List.countP_cons]
          have hfalse : ordIs 0 ins = false := by
            unfold ordIs
            rw [hins]
          rw [hfalse]
          simp
      | some it =>
        have htyp := hd.2 it hins
        by_cases hord : it.ord = 0
        · refine ⟨[⟨j, it.typ, it.reg⟩] :: seeds, ?_, ?_⟩
          · simp only [seedsGo, hins]
            rw [if_pos htyp]
            simp only [hs]
            rw [if_pos hord]
          · simp only [List.length_cons]
            rw [hlen]
            unfold ordCount
            rw [List.countP_cons]
            have htrue : ordIs 0 ins = true := by
              unfold ordIs
              rw [hins]
              simp [hord]
            rw [htrue]
            simp
        · refine ⟨seeds, ?_, ?_⟩
          · simp only [seedsGo, hins]
            rw [if_pos htyp]
            simp only [hs]
            rw [if_neg hord]
          · rw [hlen]
            unfold ordCount
            rw [List.countP_cons]
            have hfalse : ordIs 0 ins = false := by
              unfold ordIs
              rw [hins]
              simp [hord]
            rw [hfalse]
            simp

/-- The level-1 pass succeeds whenever there are at least as many open
singleton chains as remaining order-1 items. -/
theorem levelGo_level1_ok (im : List IEntry) :
    ∀ (lis : List Str) (j : Nat) (cl : List Chain) (found : Bool),
      decodesOk im lis = true →
      ordCount lis 1 ≤ cl.countP (fun c => decide (c.length = 1)) →
      ∃ cl2 fnd2, levelGo im 1 lis j cl found = .ok (cl2, fnd2) := by
  intro lis
  induction lis with
  | nil =>
    intro j cl found _ _
    exact ⟨cl, found, rfl⟩
  | cons ins rest ih =>
    intro j cl found hdec hcount
    have hd := decodesOk_head im ins rest hdec
    have hdec2 := decodesOk_cons im ins rest hdec
    cases hins : get_spec_item ins with
    | error e =>
      exact absurd (by rw [hins]) hd.1
    | ok oit =>
      cases oit with
      | none =>
        have hc2 : ordCount rest 1 ≤
            cl.countP (fun c => decide (c.length = 1)) := by
          unfold ordCount at hcount
          rw [List.countP_cons] at hcount
          have hfalse : ordIs 1 ins = false := by
            unfold ordIs
            rw [hins]
          rw [hfalse] at hcount
          simpa using hcount
        obtain ⟨cl2, fnd2, hrun⟩ := ih (j + 1) cl found hdec2 hc2
        refine ⟨cl2, fnd2, ?_⟩
        simp only [levelGo, hins]
        exact hrun
      | some it =>
        have htyp := hd.2 it hins
        by_cases hord : it.ord = 1
        · have hcnt1 : ordCount rest 1 + 1 ≤
              cl.countP (fun c => decide (c.length = 1)) := by
            unfold ordCount at hcount
            rw [List.countP_cons] at hcount
            have htrue : ordIs 1 ins = true := by
              unfold ordIs
              rw [hins]
              simp [hord]
            rw [htrue] at hcount
            simpa using hcount
          have hpos : 0 < cl.countP (fun c => decide (c.length = 1)) := by
            omega
          obtain ⟨c0, hc0mem, hc0P⟩ := List.countP_pos_iff.1 hpos
          obtain ⟨k0i, hk0lt, hk0eq⟩ := List.getElem_of_mem hc0mem
          have hchoose : chooseChain cl 1 j ≠ none := by
            intro hnone
            have := (chooseChain_none_iff cl 1 j).1 hnone k0i hk0lt
            rw [lenAt, getD_of_lt _ _ hk0lt, hk0eq] at this
            exact this (of_decide_eq_true hc0P)
          cases hcc : chooseChain cl 1 j with
          | none => exact absurd hcc hchoose
          | some k0 =>
            obtain ⟨hklt, hklen, _⟩ := chooseChain_spec cl 1 j k0 hcc
            have hklen2 : (cl.getD k0 []).length = 1 := hklen
            have hset := countP_set_of
              (fun c : Chain => decide (c.length = 1)) cl k0
              (cl.getD k0 [] ++ [(⟨j, it.typ, it.reg⟩ : CItem)]) hklt
              (by
                show decide ((cl.getD k0 []).length = 1) = true
                rw [hklen2]
                rfl)
              (by
                show decide
                  ((cl.getD k0 [] ++
                    [(⟨j, it.typ, it.reg⟩ : CItem)]).length = 1) = false
                rw [List.length_append, hklen2]
                rfl)
            obtain ⟨cl2, fnd2, hrun⟩ := ih (j + 1)
              (cl.set k0 (cl.getD k0 [] ++ [⟨j, it.typ, it.reg⟩])) true
              hdec2 (by omega)
            refine ⟨cl2, fnd2, ?_⟩
            simp only [levelGo, hins]
            rw [if_pos htyp, if_pos hord]
            simp only [hcc]
            exact hrun
        · have hc2 : ordCount rest 1 ≤
              cl.countP (fun c => decide (c.length = 1)) := by
            unfold ordCount at hcount
            rw [List.countP_cons] at hcount
            have hfalse : ordIs 1 ins = false := by
              unfold ordIs
              rw [hins]
              simp [hord]
            rw [hfalse] at hcount
            simpa using hcount
          obtain ⟨cl2, fnd2, hrun⟩ := ih (j + 1) cl found hdec2 hc2
          refine ⟨cl2, fnd2, ?_⟩
          simp only [levelGo, hins]
          rw [if_pos htyp, if_neg hord]
          exact hrun

/-- The gap pass fails with the order-gap error as soon as some item has
order at least the stopping level. -/
theorem gapGo_err (im : List IEntry) (i : Nat) :
    ∀ (lis : List Str),
      decodesOk im lis = true →
      (∃ ins ∈ lis, ∃ it, get_spec_item ins = .ok (some it) ∧
        i ≤ it.ord) →
      gapGo im i lis = .error .orderGap := by
  intro lis
  induction lis with
  | nil =>
    intro _ hex
    obtain ⟨ins, hmem, _⟩ := hex
    cases hmem
  | cons ins rest ih =>
    intro hdec hex
    have hd := decodesOk_head im ins rest hdec
    have hdec2 := decodesOk_cons im ins rest hdec
    cases hins : get_spec_item ins with
    | error e =>
      exact absurd (by rw [hins]) hd.1
    | ok oit =>
      cases oit with
      | none =>
        simp only [gapGo, hins]
        refine ih hdec2 ?_
        obtain ⟨x, hx, it, hxit, hord⟩ := hex
        rcases List.mem_cons.1 hx with rfl | hx2
        · rw [hins] at hxit
          cases hxit
        · exact ⟨x, hx2, it, hxit, hord⟩
      | some it =>
        simp only [gapGo, hins]
        rw [if_pos (hd.2 it hins)]
        by_cases hge : it.ord ≥ i
        · rw [if_pos hge]
        · rw [if_neg hge]
          refine ih hdec2 ?_
          obtain ⟨x, hx, it2, hxit, hord2⟩ := hex
          rcases List.mem_cons.1 hx with rfl | hx2
          · rw [hins] at hxit
            have : it2 = it := (Option.some.inj (Except.ok.inj hxit)).symm
            rw [this] at hord2
            exact absurd hord2 hge
          · exact ⟨x, hx2, it2, hxit, hord2⟩

/-- C9 counterexample: a stream whose decoded orders are `{0, 1, 3}`
(concretely `[0, 1, 1, 3]`, two order-1 items for one order-0 seed)
aborts with the *missing-item* error at level 1 — not with the
order-gap error. -/
theorem order_gap_counterexample :
    specOrds lisB = [0, 1, 1, 3] ∧
      cluster_specs imap_pm lisB = .error .missingItem ∧
      cluster_specs imap_pm lisB ≠ .error .orderGap := by
  refine ⟨rfl, rfl, ?_⟩
  intro h
  rw [show cluster_specs imap_pm lisB = .error .missingItem from rfl] at h
  exact absurd (Except.error.inj h) (by decide)

theorem levelLoop_succ (im : List IEntry) (lis : List Str)
    (cl : List Chain) (i fuel : Nat) :
    levelLoop im lis cl i (fuel + 1) =
      match levelPass im lis cl i with
      | .error e => .error e
      | .ok (cl2, found) =>
        if found then levelLoop im lis cl2 (i + 1) fuel
        else .ok (cl2, i + 1) := rfl

/-- C9 (amended): an input whose decoded spec items carry order-index
values `{0, 1, 3}` with no item of order 2 aborts with the order-gap
error during the sanity pass after level iteration stops — provided
every order-1 item can be assigned, which holds whenever there are at
most as many order-1 items as order-0 items; with more order-1 items
than seeds the run aborts earlier with the missing-item error (see the
counterexample).  In either case the order-3 item is never assigned to
a chain. -/
theorem order_gap_detection :
    ∀ (im : List IEntry) (lis : List Str),
      5 < lis.length →
      decodesOk im lis = true →
      ordsIn013 lis = true →
      lis.any (ordIs 0) = true →
      lis.any (ordIs 3) = true →
      ordCount lis 1 ≤ ordCount lis 0 →
      cluster_specs im lis = .error .orderGap := by
  intro im lis h5 hdec h013 h0 h3 hcnt
  obtain ⟨seeds, hseeds, hslen⟩ := seedsGo_ok im lis 0 hdec
  have hs1 := seedsGo_len1 im lis 0 seeds hseeds
  have hall1 : seeds.countP (fun c => decide (c.length = 1)) =
      seeds.length :=
    List.countP_eq_length.2 (fun c hc => by simp [hs1 c hc])
  have h0pos : 0 < ordCount lis 0 := by
    unfold ordCount
    rw [List.countP_pos_iff]
    obtain ⟨x, hx, hxp⟩ := List.any_eq_true.1 h0
    exact ⟨x, hx, hxp⟩
  obtain ⟨cl1, fnd1, hlvl1⟩ := levelGo_level1_ok im lis 0 seeds false hdec
    (by rw [hall1, hslen]; exact hcnt)
  have hord013 := ordsIn013_prop lis h013
  have hlvl2 : levelGo im 2 lis 0 cl1 false = .ok (cl1, false) :=
    levelGo_id im 2 lis 0 cl1 false hdec (by
      intro x hx it hxit
      rcases hord013 x hx it hxit with h | h | h <;> omega)
  have hloop : levelLoop im lis seeds 1 16 =
      .ok (cl1, if fnd1 then 3 else 2) := by
    cases fnd1 with
    | true =>
      show levelLoop im lis seeds 1 (15 + 1) = .ok (cl1, 3)
      rw [levelLoop_succ]
      unfold levelPass
      simp only [hlvl1]
      rw [if_pos trivial]
      show levelLoop im lis cl1 2 (14 + 1) = .ok (cl1, 3)
      rw [levelLoop_succ]
      unfold levelPass
      simp only [hlvl2]
      rfl
    | false =>
      show levelLoop im lis seeds 1 (15 + 1) = .ok (cl1, 2)
      rw [levelLoop_succ]
      unfold levelPass
      simp only [hlvl1]
      rfl
  obtain ⟨x3, hx3, hx3p⟩ := List.any_eq_true.1 h3
  obtain ⟨it3, hit3, hit3ord⟩ := ordIs_decode 3 x3 hx3p
  have hgap : gapGo im (if fnd1 then 3 else 2) lis = .error .orderGap := by
    refine gapGo_err im (if fnd1 then 3 else 2) lis hdec ?_
    refine ⟨x3, hx3, it3, hit3, ?_⟩
    rw [hit3ord]
    cases fnd1 <;> simp
  unfold cluster_specs
  rw [if_neg (by omega)]
  simp only [hseeds]
  rw [if_neg (by omega)]
  simp only [hloop, hgap]

/-- Witness for C9 (amended): one item each at orders 0, 1 and 3 leads
to the order-gap abort. -/
theorem order_gap_detection_witness :
    cluster_specs imap_pm
      [cs "IADD32I R1, R5, 0x7f3a0000;",
       cs "IADD32I R1, R6, 0x7f3a0010;",
       cs "IADD32I R1, R8, 0x7f3a0030;",
       cs "NOP;", cs "NOP;", cs "NOP;"] = .error .orderGap := by
  refine order_gap_detection imap_pm _ (by decide) (by decide) (by decide)
    (by decide) (by decide) (by decide)

end Optcheck
